import Mathlib

/-!
Verification of the connected-component routines of
`Polygon_mesh_processing/connected_components.h`.

The polygon mesh (a halfedge data structure in the sense of the BGL
`FaceGraph` concept used by the source) is embedded shallowly: entities
(vertices, halfedges, faces) are natural numbers, the entity collections of
the mesh are lists (whose order models the mesh's native enumeration
order), and the connectivity accessors (`opposite`, `next`, `prev`,
`target`, `face`, `halfedge(v)`, `halfedge(f)`) are functions.  `edgesL`
enumerates one representative halfedge per edge, modelling the
`edge_descriptor` collection.  A border halfedge is one whose incident
face is `none` (the `null_face` sentinel).
-/

namespace CC

/-- Pointwise functional update, modelling an assignment to a stored field
of a mesh entity. -/
def upd (f : Nat → α) (a : Nat) (b : α) : Nat → α :=
  fun x => if x = a then b else f x

/-- The halfedge mesh.  Fields mirror the data the source reads and
writes through the BGL graph interface. -/
structure Mesh where
  vertsL : List Nat
  hedgesL : List Nat
  edgesL : List Nat
  facesL : List Nat
  opp : Nat → Nat
  nxt : Nat → Nat
  prv : Nat → Nat
  tgt : Nat → Nat
  hface : Nat → Option Nat
  vh : Nat → Nat
  fh : Nat → Nat

/-- `source(h) = target(opposite(h))`. -/
def Mesh.src (M : Mesh) (h : Nat) : Nat := M.tgt (M.opp h)

/-- `is_border(h)`: the incident face is the `null_face` sentinel. -/
def Mesh.isBorder (M : Mesh) (h : Nat) : Bool := (M.hface h).isNone

/-- `set_next(a, b)`: link `b` after `a`; both the `next` field of `a` and
the `prev` field of `b` are updated, as in the halfedge data structures the
source operates on. -/
def setNextM (M : Mesh) (a b : Nat) : Mesh :=
  { M with nxt := upd M.nxt a b, prv := upd M.prv b a }

/-- `set_face(h, f)`. -/
def setFaceM (M : Mesh) (h : Nat) (f : Option Nat) : Mesh :=
  { M with hface := upd M.hface h f }

/-- `set_halfedge(v, h)`. -/
def setVhM (M : Mesh) (v h : Nat) : Mesh :=
  { M with vh := upd M.vh v h }

/-- `remove_edge(e)`: both halfedges of the edge disappear. -/
def removeEdgeM (M : Mesh) (e : Nat) : Mesh :=
  { M with
    hedgesL := M.hedgesL.filter (fun x => x ≠ e ∧ x ≠ M.opp e)
    edgesL := M.edgesL.filter (fun x => x ≠ e ∧ x ≠ M.opp e) }

/-- `remove_face(f)`. -/
def removeFaceM (M : Mesh) (f : Nat) : Mesh :=
  { M with facesL := M.facesL.filter (fun x => x ≠ f) }

/-- `remove_vertex(v)`. -/
def removeVertexM (M : Mesh) (v : Nat) : Mesh :=
  { M with vertsL := M.vertsL.filter (fun x => x ≠ v) }

/-- `CGAL::clear(pmesh)`: wipe the whole mesh. -/
def emptyMesh : Mesh :=
  ⟨[], [], [], [], id, id, id, id, fun _ => none, id, id⟩

/-- One step of walking `next` pointers from `h` until the walk returns to
`h0`, with fuel; used to enumerate `halfedges_around_face`. -/
def nextIter (M : Mesh) (h0 : Nat) : Nat → Nat → List Nat
  | 0, _ => []
  | fuel + 1, h =>
      h :: (if M.nxt h = h0 then [] else nextIter M h0 fuel (M.nxt h))

/-- `halfedges_around_face(h0, pmesh)`: the cycle of `next` pointers
through `h0`.  The fuel `|halfedges|` suffices on any valid mesh, where
the cycle closes within that many steps. -/
def faceCycle (M : Mesh) (h0 : Nat) : List Nat :=
  nextIter M h0 M.hedgesL.length h0

/-- Auxiliary decidable form of "if the face is present it is a listed
face". -/
def optFaceIn (o : Option Nat) (L : List Nat) : Prop :=
  (match o with
   | none => true
   | some f => L.contains f) = true

instance (o : Option Nat) (L : List Nat) : Decidable (optFaceIn o L) := by
  unfold optFaceIn; infer_instance

/-- Well-formedness of a mesh: the halfedge-structure invariants the
source assumes of any `FaceGraph` (mutual opposites, `next`/`prev`
inverses, `next` staying inside a face, face cycles enumerating exactly
the halfedges of their face).  All conditions are decidable so concrete
meshes can be checked by `decide`. -/
structure Wf (M : Mesh) : Prop where
  vertsND : M.vertsL.Nodup
  hedgesND : M.hedgesL.Nodup
  facesND : M.facesL.Nodup
  edgesND : M.edgesL.Nodup
  edges_sub : ∀ e ∈ M.edgesL, e ∈ M.hedgesL
  edges_cover : ∀ h ∈ M.hedgesL, h ∈ M.edgesL ∨ M.opp h ∈ M.edgesL
  edges_once : ∀ e ∈ M.edgesL, M.opp e ∉ M.edgesL
  opp_mem : ∀ h ∈ M.hedgesL, M.opp h ∈ M.hedgesL
  opp_invol : ∀ h ∈ M.hedgesL, M.opp (M.opp h) = h
  opp_ne : ∀ h ∈ M.hedgesL, M.opp h ≠ h
  noLoop : ∀ h ∈ M.hedgesL, M.tgt h ≠ M.tgt (M.opp h)
  nxt_mem : ∀ h ∈ M.hedgesL, M.nxt h ∈ M.hedgesL
  prv_mem : ∀ h ∈ M.hedgesL, M.prv h ∈ M.hedgesL
  prv_nxt : ∀ h ∈ M.hedgesL, M.prv (M.nxt h) = h
  nxt_prv : ∀ h ∈ M.hedgesL, M.nxt (M.prv h) = h
  tgt_mem : ∀ h ∈ M.hedgesL, M.tgt h ∈ M.vertsL
  src_nxt : ∀ h ∈ M.hedgesL, M.tgt (M.opp (M.nxt h)) = M.tgt h
  face_nxt : ∀ h ∈ M.hedgesL, M.hface (M.nxt h) = M.hface h
  face_mem : ∀ h ∈ M.hedgesL, optFaceIn (M.hface h) M.facesL
  fh_mem : ∀ f ∈ M.facesL, M.fh f ∈ M.hedgesL
  fh_face : ∀ f ∈ M.facesL, M.hface (M.fh f) = some f
  faceCycle_sound : ∀ f ∈ M.facesL, ∀ h ∈ faceCycle M (M.fh f),
      h ∈ M.hedgesL ∧ M.hface h = some f
  faceCycle_complete : ∀ f ∈ M.facesL, ∀ h ∈ M.hedgesL,
      M.hface h = some f → h ∈ faceCycle M (M.fh f)

/-! ## `connected_component` (single seed): explicit-stack DFS -/

/-- The faces pushed while scanning the halfedges around `f`: across every
halfedge of the cycle whose edge is not constrained, the face on the other
side when it is not `null_face`.  (`List.contains` keeps the result within
the mesh's face set, which on a well-formed mesh is automatic.) -/
def nbrsL (M : Mesh) (ecm : Nat → Bool) (f : Nat) : List Nat :=
  (faceCycle M (M.fh f)).filterMap (fun hd =>
    if ecm hd then none
    else
      match M.hface (M.opp hd) with
      | some g => if g ∈ M.facesL then some g else none
      | none => none)

/-- The explicit-stack loop of `connected_component`: pop, skip if already
processed, emit, push the neighbouring faces.  Structural on fuel so the
whole development stays computable; `ccFuel` below always suffices. -/
def ccDfs (M : Mesh) (ecm : Nat → Bool) : Nat → List Nat → Finset Nat → List Nat
  | 0, _, _ => []
  | _ + 1, [], _ => []
  | fuel + 1, f :: rest, vis =>
      if f ∈ vis then ccDfs M ecm fuel rest vis
      else f :: ccDfs M ecm fuel ((nbrsL M ecm f).reverse ++ rest) (insert f vis)

/-- Enough fuel for the DFS to run to completion on any input. -/
def ccFuel (M : Mesh) : Nat :=
  (M.facesL.length + 1) * (M.hedgesL.length + 1) + 1

/-- `connected_component(seed_face, pmesh, out, np)`: the list of faces
written to `out`. -/
def connected_component (M : Mesh) (ecm : Nat → Bool) (seed : Nat) : List Nat :=
  ccDfs M ecm (ccFuel M) [seed] ∅

/-- One face-adjacency step as described by the spec: the two faces are
on the two sides of a common edge that is neither a border edge nor
constrained. -/
def AdjE (M : Mesh) (ecm : Nat → Bool) (f g : Nat) : Prop :=
  ∃ h ∈ M.hedgesL, M.hface h = some f ∧ M.hface (M.opp h) = some g ∧ ecm h = false

/-- Reachability through unblocked, non-border edges. -/
def Reach (M : Mesh) (ecm : Nat → Bool) : Nat → Nat → Prop :=
  Relation.ReflTransGen (AdjE M ecm)

/-! ## `connected_components` (global labeling) -/

/-- One step of the labeling scan: a yet-unlabeled face receives the
next fresh id together with its whole component (the traversal of the
filtered dual graph performed by `boost::connected_components`). -/
def ccStep (M : Mesh) (ecm : Nat → Bool) (p : (Nat → Option Nat) × Nat)
    (f : Nat) : (Nat → Option Nat) × Nat :=
  if (p.1 f).isSome then p
  else
    (fun g => if g ∈ connected_component M ecm f then some p.2 else p.1 g,
     p.2 + 1)

/-- `connected_components(pmesh, fcm, np)`: faces are scanned in
enumeration order, labeling component after component.  Returns the
final face-to-id map and the number of components. -/
def connected_componentsM (M : Mesh) (ecm : Nat → Bool) :
    (Nat → Option Nat) × Nat :=
  M.facesL.foldl (ccStep M ecm) (fun _ => none, 0)

/-- Invariant of the labeling scan after processing the faces in `pr`:
the labeled faces are exactly those connected to a processed face, the
ids used are exactly `[0, p.2)`, and two labeled faces share an id iff
they are connected. -/
def LabelInv (M : Mesh) (ecm : Nat → Bool) (pr : List Nat)
    (p : (Nat → Option Nat) × Nat) : Prop :=
  (∀ g, (p.1 g).isSome ↔ ∃ q ∈ pr, Reach M ecm q g) ∧
  (∀ g i, p.1 g = some i → i < p.2) ∧
  (∀ i, i < p.2 → ∃ g, p.1 g = some i) ∧
  (∀ g g' i i', p.1 g = some i → p.1 g' = some i' →
     (i = i' ↔ Reach M ecm g g'))

/-! ## `keep_or_remove_connected_components`: the excision engine -/

/-- The first loop over faces of `keep_or_remove_connected_components`:
`put(fcm, f, keep ? 1 : 0)` when the component id of `f` is in the id set,
the complement value otherwise.  Expressed as the value the map holds for
`f` afterwards (each face is read once, then overwritten). -/
def fcmReset (ids : List Nat) (keep : Bool) (fcm : Nat → Nat) (f : Nat) : Nat :=
  if fcm f ∈ ids then (if keep then 1 else 0)
  else (if keep then 0 else 1)

/-- The `keep_vertex` map: `v` is marked iff it is the target of a
halfedge around some face whose (rewritten) `fcm` value is `1`. -/
def keepVertexF (M : Mesh) (fcmB : Nat → Nat) (v : Nat) : Bool :=
  M.facesL.any (fun f =>
    fcmB f = 1 && (faceCycle M (M.fh f)).any (fun h => M.tgt h = v))

/-- Is the face on the side of `h` a kept face? (`!is_border(h) &&
get(fcm, face(h))` of the source, with `fcm` values already 0/1.) -/
def keptSide (fcmB : Nat → Nat) (o : Option Nat) : Bool :=
  match o with
  | some f => fcmB f = 1
  | none => false

/-- The splice performed when an edge interior to the removed region has
both endpoints kept: bridge `next`/`prev` across the edge on both sides
(`set_next(prev(h), next(oh))`, then `set_next(prev(oh), next(h))`, both
reads from the current state), then remove the edge. -/
def spliceBoth (M : Mesh) (e : Nat) : Mesh :=
  removeEdgeM
    (setNextM (setNextM M (M.prv e) (M.nxt (M.opp e)))
      ((setNextM M (M.prv e) (M.nxt (M.opp e))).prv (M.opp e))
      ((setNextM M (M.prv e) (M.nxt (M.opp e))).nxt e))
    e

/-- The splice when only the source vertex is kept:
`set_next(prev(h), next(oh))`, then remove the edge. -/
def spliceV (M : Mesh) (e : Nat) : Mesh :=
  removeEdgeM (setNextM M (M.prv e) (M.nxt (M.opp e))) e

/-- The splice when only the target vertex is kept:
`set_next(prev(oh), next(h))`, then remove the edge. -/
def spliceW (M : Mesh) (e : Nat) : Mesh :=
  removeEdgeM (setNextM M (M.prv (M.opp e)) (M.nxt e)) e

/-- The body of the edge-reclassification loop, for one edge `e` of the
snapshot.  Mirrors the source's case analysis line by line. -/
def processEdge (kv : Nat → Bool) (fcmB : Nat → Nat) (M : Mesh) (e : Nat) : Mesh :=
  let h := e
  let oh := M.opp h
  let v := M.tgt oh
  let w := M.tgt h
  if !kv v && !kv w then
    -- don't care about connectivity: faces and vertices removed later
    removeEdgeM M e
  else if kv v && kv w then
    if M.isBorder h && M.isBorder oh then M
    else if (M.isBorder oh && keptSide fcmB (M.hface h)) ||
            (M.isBorder h && keptSide fcmB (M.hface oh)) ||
            (!M.isBorder oh && !M.isBorder h && keptSide fcmB (M.hface h) &&
              keptSide fcmB (M.hface oh)) then M
    else if !M.isBorder h && keptSide fcmB (M.hface h) &&
            !M.isBorder oh && !keptSide fcmB (M.hface oh) then
      setFaceM M oh none
    else if !M.isBorder h && !keptSide fcmB (M.hface h) &&
            !M.isBorder oh && keptSide fcmB (M.hface oh) then
      setFaceM M h none
    else
      -- no face kept: splice next pointers across the edge and remove it
      let M1 := if M.vh v = oh then setVhM M v (M.prv h) else M
      let M2 := if M1.vh w = h then setVhM M1 w (M1.prv oh) else M1
      spliceBoth M2 e
  else if kv v then
    let M1 := if M.vh v = oh then setVhM M v (M.prv h) else M
    spliceV M1 e
  else
    let M1 := if M.vh w = h then setVhM M w (M.prv oh) else M
    spliceW M1 e

/-- Named subterm of `processEdge`: the conditional `set_halfedge` fix-up
`if (halfedge(v) == oh) set_halfedge(v, prev(h))` for the source vertex. -/
def vhFixV (M : Mesh) (e : Nat) : Mesh :=
  if M.vh (M.tgt (M.opp e)) = M.opp e then setVhM M (M.tgt (M.opp e)) (M.prv e) else M

/-- Named subterm of `processEdge`: the conditional `set_halfedge` fix-up
`if (halfedge(w) == h) set_halfedge(w, prev(oh))` for the target vertex,
where `w`, `h`, `oh` are read off the mesh `A` seen at the top of the loop
body and `prev` off the current mesh `M`. -/
def vhFixW (A M : Mesh) (e : Nat) : Mesh :=
  if M.vh (A.tgt e) = e then setVhM M (A.tgt e) (M.prv (A.opp e)) else M

/-- `keep_or_remove_connected_components(pmesh, components_to_keep, fcm,
keep, np)`.  Returns the mutated mesh together with the final state of the
face-component map (whose values the loop rewrote to 0/1). -/
def keep_or_remove_connected_components (M : Mesh) (ids : List Nat)
    (fcm : Nat → Nat) (keep : Bool) : Mesh × (Nat → Nat) :=
  let fcmB := fcmReset ids keep fcm
  let kv := keepVertexF M fcmB
  let M1 := M.edgesL.foldl (processEdge kv fcmB) M
  let M2 := M1.facesL.foldl
    (fun Mc f => if fcmB f ≠ 1 then removeFaceM Mc f else Mc) M1
  let M3 := M2.vertsL.foldl
    (fun Mc v => if !kv v then removeVertexM Mc v else Mc) M2
  (M3, fun f => if M.facesL.contains f then fcmB f else fcm f)

/-- `keep_connected_components(pmesh, components_to_keep, fcm, np)`. -/
def keep_connected_componentsM (M : Mesh) (ids : List Nat)
    (fcm : Nat → Nat) : Mesh × (Nat → Nat) :=
  keep_or_remove_connected_components M ids fcm true

/-- `remove_connected_components(pmesh, components_to_remove, fcm, np)`:
returns immediately when the range is empty. -/
def remove_connected_componentsM (M : Mesh) (ids : List Nat)
    (fcm : Nat → Nat) : Mesh × (Nat → Nat) :=
  if ids.isEmpty then (M, fcm)
  else keep_or_remove_connected_components M ids fcm false

/-! ## Ranking: `keep_largest` / `keep_large` -/

/-- `++component_size[face_cc[f]].second` for one face (no effect when the
id indexes no entry, which never happens for labeled faces). -/
def incrSize (l : List (Nat × Nat)) (i : Nat) : List (Nat × Nat) :=
  l.map (fun p => if p.1 = i then (p.1, p.2 + 1) else p)

/-- The `component_size` vector: pairs `(i, size)` in id order, sizes
accumulated by one pass over the faces. -/
def componentSizes (M : Mesh) (fcmF : Nat → Nat) (num : Nat) : List (Nat × Nat) :=
  M.facesL.foldl (fun l f => incrSize l (fcmF f))
    ((List.range num).map (fun i => (i, 0)))

/-- Insertion step of sorting with the `internal::MoreSecond` comparator
(`a.second > b.second`).  `std::sort` leaves the order among equal sizes
unspecified; this models one valid outcome (a sorted permutation). -/
def insertBySize (p : Nat × Nat) : List (Nat × Nat) → List (Nat × Nat)
  | [] => [p]
  | q :: l => if p.2 > q.2 then p :: q :: l else q :: insertBySize p l

/-- Sorting `component_size` in decreasing size order. -/
def sortBySize : List (Nat × Nat) → List (Nat × Nat)
  | [] => []
  | p :: l => insertBySize p (sortBySize l)

/-- `keep_largest_connected_components(pmesh, nb_components_to_keep, np)`;
returns the mesh and the number of removed components. -/
def keep_largest_connected_components (M : Mesh) (k : Nat) (ecm : Nat → Bool) :
    Mesh × Nat :=
  let p := connected_componentsM M ecm
  let num := p.2
  let fcmF := fun f => (p.1 f).getD 0
  if k = 0 then (emptyMesh, num)
  else if num = 1 ∨ k > num then (M, 0)
  else
    let sorted := sortBySize (componentSizes M fcmF num)
    let ccKeep := (sorted.take k).map Prod.fst
    ((keep_or_remove_connected_components M ccKeep fcmF true).1, num - k)

/-- `keep_large_connected_components(pmesh, threshold_components_to_keep,
np)`; returns the mesh and the number of removed components. -/
def keep_large_connected_components (M : Mesh) (t : Nat) (ecm : Nat → Bool) :
    Mesh × Nat :=
  let p := connected_componentsM M ecm
  let num := p.2
  let fcmF := fun f => (p.1 f).getD 0
  let cs := componentSizes M fcmF num
  let ccKeep := (cs.filter (fun q => q.2 ≥ t)).map Prod.fst
  ((keep_or_remove_connected_components M ccKeep fcmF true).1,
   num - ccKeep.length)

/-! ## Concrete meshes used as witnesses -/

/-- The default `internal::No_constraint` map: no edge is constrained. -/
def ecm0 : Nat → Bool := fun _ => false

/-- A single triangle: vertices 0,1,2, face 0, interior halfedges
10,11,12 and border halfedges 20,21,22. -/
def W1 : Mesh where
  vertsL := [0, 1, 2]
  hedgesL := [10, 11, 12, 20, 21, 22]
  edgesL := [10, 11, 12]
  facesL := [0]
  opp := fun h => match h with
    | 10 => 20 | 20 => 10 | 11 => 21 | 21 => 11 | 12 => 22 | 22 => 12
    | _ => 0
  nxt := fun h => match h with
    | 10 => 11 | 11 => 12 | 12 => 10 | 20 => 22 | 22 => 21 | 21 => 20
    | _ => 0
  prv := fun h => match h with
    | 11 => 10 | 12 => 11 | 10 => 12 | 22 => 20 | 21 => 22 | 20 => 21
    | _ => 0
  tgt := fun h => match h with
    | 10 => 1 | 11 => 2 | 12 => 0 | 20 => 0 | 21 => 1 | 22 => 2
    | _ => 0
  hface := fun h => match h with
    | 10 => some 0 | 11 => some 0 | 12 => some 0
    | _ => none
  vh := fun v => match v with
    | 0 => 12 | 1 => 10 | 2 => 11 | _ => 0
  fh := fun _ => 10

/-- Two disjoint triangles (faces 0 and 1) plus an isolated vertex 6. -/
def W2 : Mesh where
  vertsL := [0, 1, 2, 3, 4, 5, 6]
  hedgesL := [10, 11, 12, 20, 21, 22, 30, 31, 32, 40, 41, 42]
  edgesL := [10, 11, 12, 30, 31, 32]
  facesL := [0, 1]
  opp := fun h => match h with
    | 10 => 20 | 20 => 10 | 11 => 21 | 21 => 11 | 12 => 22 | 22 => 12
    | 30 => 40 | 40 => 30 | 31 => 41 | 41 => 31 | 32 => 42 | 42 => 32
    | _ => 0
  nxt := fun h => match h with
    | 10 => 11 | 11 => 12 | 12 => 10 | 20 => 22 | 22 => 21 | 21 => 20
    | 30 => 31 | 31 => 32 | 32 => 30 | 40 => 42 | 42 => 41 | 41 => 40
    | _ => 0
  prv := fun h => match h with
    | 11 => 10 | 12 => 11 | 10 => 12 | 22 => 20 | 21 => 22 | 20 => 21
    | 31 => 30 | 32 => 31 | 30 => 32 | 42 => 40 | 41 => 42 | 40 => 41
    | _ => 0
  tgt := fun h => match h with
    | 10 => 1 | 11 => 2 | 12 => 0 | 20 => 0 | 21 => 1 | 22 => 2
    | 30 => 4 | 31 => 5 | 32 => 3 | 40 => 3 | 41 => 4 | 42 => 5
    | _ => 0
  hface := fun h => match h with
    | 10 => some 0 | 11 => some 0 | 12 => some 0
    | 30 => some 1 | 31 => some 1 | 32 => some 1
    | _ => none
  vh := fun v => match v with
    | 0 => 12 | 1 => 10 | 2 => 11 | 3 => 32 | 4 => 30 | 5 => 31
    | _ => 0
  fh := fun f => match f with
    | 0 => 10 | _ => 30

/-- Two components of different sizes: a square split into triangles
(faces 0 and 1 over vertices 0,1,2,3, sharing the edge `{12,13}`) and a
lone triangle (face 2 over vertices 4,5,6). -/
def W3 : Mesh where
  vertsL := [0, 1, 2, 3, 4, 5, 6]
  hedgesL := [10, 11, 12, 13, 14, 15, 20, 21, 24, 25, 30, 31, 32, 40, 41, 42]
  edgesL := [10, 11, 12, 14, 15, 30, 31, 32]
  facesL := [0, 1, 2]
  opp := fun h => match h with
    | 10 => 20 | 20 => 10 | 11 => 21 | 21 => 11 | 12 => 13 | 13 => 12
    | 14 => 24 | 24 => 14 | 15 => 25 | 25 => 15
    | 30 => 40 | 40 => 30 | 31 => 41 | 41 => 31 | 32 => 42 | 42 => 32
    | _ => 0
  nxt := fun h => match h with
    | 10 => 11 | 11 => 12 | 12 => 10 | 13 => 14 | 14 => 15 | 15 => 13
    | 20 => 25 | 25 => 24 | 24 => 21 | 21 => 20
    | 30 => 31 | 31 => 32 | 32 => 30 | 40 => 42 | 42 => 41 | 41 => 40
    | _ => 0
  prv := fun h => match h with
    | 11 => 10 | 12 => 11 | 10 => 12 | 14 => 13 | 15 => 14 | 13 => 15
    | 25 => 20 | 24 => 25 | 21 => 24 | 20 => 21
    | 31 => 30 | 32 => 31 | 30 => 32 | 42 => 40 | 41 => 42 | 40 => 41
    | _ => 0
  tgt := fun h => match h with
    | 10 => 1 | 11 => 2 | 12 => 0 | 13 => 2 | 14 => 3 | 15 => 0
    | 20 => 0 | 21 => 1 | 24 => 2 | 25 => 3
    | 30 => 5 | 31 => 6 | 32 => 4 | 40 => 4 | 41 => 5 | 42 => 6
    | _ => 0
  hface := fun h => match h with
    | 10 => some 0 | 11 => some 0 | 12 => some 0
    | 13 => some 1 | 14 => some 1 | 15 => some 1
    | 30 => some 2 | 31 => some 2 | 32 => some 2
    | _ => none
  vh := fun v => match v with
    | 0 => 12 | 1 => 10 | 2 => 11 | 3 => 14 | 4 => 32 | 5 => 30 | 6 => 31
    | _ => 0
  fh := fun f => match f with
    | 0 => 10 | 1 => 13 | _ => 30

/-! ## Derived notions used in the statements and proofs -/

/-- Number of faces of the component with id `i` (under a face-to-id
assignment `fcmF`). -/
def compSize (M : Mesh) (fcmF : Nat → Nat) (i : Nat) : Nat :=
  (M.facesL.filter (fun f => fcmF f = i)).length

/-- Classification of a halfedge by the edge-reclassification loop of
`keep_or_remove_connected_components`, computed from the pre-call data:
its edge is kept (not removed by the loop) iff both endpoints are kept
vertices and either some side carries a kept face or both sides are
border. -/
def keptHalfB (M0 : Mesh) (fcmB : Nat → Nat) (kv : Nat → Bool) (h : Nat) : Bool :=
  kv (M0.tgt (M0.opp h)) && kv (M0.tgt h) &&
    (keptSide fcmB (M0.hface h) || keptSide fcmB (M0.hface (M0.opp h)) ||
      (M0.isBorder h && M0.isBorder (M0.opp h)))

/-- The invariant maintained by the edge-reclassification loop, relating
the current mesh `M` to the pre-call mesh `M0` (with the rewritten face
map `fcmB` and the kept-vertex map `kv` fixed).  `J0`, `J1`, `J2` say
that on live halfedges with a kept endpoint the `next`/`prev` structure
is injective, mutually inverse and consistent with sources and targets;
the remaining fields record what the loop never touches. -/
structure EInv (M0 : Mesh) (fcmB : Nat → Nat) (kv : Nat → Bool) (M : Mesh) : Prop where
  opp_eq : M.opp = M0.opp
  tgt_eq : M.tgt = M0.tgt
  faces_eq : M.facesL = M0.facesL
  verts_eq : M.vertsL = M0.vertsL
  fh_eq : M.fh = M0.fh
  sub : ∀ h ∈ M.hedgesL, h ∈ M0.hedgesL
  pair : ∀ h ∈ M.hedgesL, M0.opp h ∈ M.hedgesL
  survKept : ∀ h ∈ M0.hedgesL, keptHalfB M0 fcmB kv h = true → h ∈ M.hedgesL
  hface_kept : ∀ h, keptSide fcmB (M0.hface h) = true → M.hface h = M0.hface h
  hface_opts : ∀ h, M.hface h = M0.hface h ∨ M.hface h = none
  J0 : ∀ a ∈ M.hedgesL, ∀ b ∈ M.hedgesL, M.nxt a = M.nxt b → a = b
  J1 : ∀ a ∈ M.hedgesL, kv (M0.tgt a) = true →
      M.nxt a ∈ M.hedgesL ∧ M0.tgt (M0.opp (M.nxt a)) = M0.tgt a ∧
        M.prv (M.nxt a) = a
  J2 : ∀ b ∈ M.hedgesL, kv (M0.tgt (M0.opp b)) = true →
      M.prv b ∈ M.hedgesL ∧ M.nxt (M.prv b) = b ∧
        M0.tgt (M.prv b) = M0.tgt (M0.opp b)

/-! ## Theorems.  First, basic lemmas about the mutators. -/

theorem upd_same (f : Nat → α) (a : Nat) (b : α) : upd f a b a = b := by
  simp [upd]

theorem upd_other (f : Nat → α) (a : Nat) (b : α) {x : Nat} (h : x ≠ a) :
    upd f a b x = f x := by
  simp [upd, h]

theorem W1_wf : Wf W1 := by constructor <;> decide

theorem W2_wf : Wf W2 := by constructor <;> decide

theorem W3_wf : Wf W3 := by constructor <;> decide

/-! ## Frame lemmas for the mesh mutators -/

@[simp] theorem setNextM_vertsL (M : Mesh) (a b : Nat) : (setNextM M a b).vertsL = M.vertsL := rfl

@[simp] theorem setNextM_hedgesL (M : Mesh) (a b : Nat) : (setNextM M a b).hedgesL = M.hedgesL := rfl

@[simp] theorem setNextM_edgesL (M : Mesh) (a b : Nat) : (setNextM M a b).edgesL = M.edgesL := rfl

@[simp] theorem setNextM_facesL (M : Mesh) (a b : Nat) : (setNextM M a b).facesL = M.facesL := rfl

@[simp] theorem setNextM_opp (M : Mesh) (a b : Nat) : (setNextM M a b).opp = M.opp := rfl

@[simp] theorem setNextM_tgt (M : Mesh) (a b : Nat) : (setNextM M a b).tgt = M.tgt := rfl

@[simp] theorem setNextM_hface (M : Mesh) (a b : Nat) : (setNextM M a b).hface = M.hface := rfl

@[simp] theorem setNextM_fh (M : Mesh) (a b : Nat) : (setNextM M a b).fh = M.fh := rfl

@[simp] theorem setNextM_nxt (M : Mesh) (a b : Nat) : (setNextM M a b).nxt = upd M.nxt a b := rfl

@[simp] theorem setNextM_prv (M : Mesh) (a b : Nat) : (setNextM M a b).prv = upd M.prv b a := rfl

@[simp] theorem setVhM_vertsL (M : Mesh) (v h : Nat) : (setVhM M v h).vertsL = M.vertsL := rfl

@[simp] theorem setVhM_hedgesL (M : Mesh) (v h : Nat) : (setVhM M v h).hedgesL = M.hedgesL := rfl

@[simp] theorem setVhM_edgesL (M : Mesh) (v h : Nat) : (setVhM M v h).edgesL = M.edgesL := rfl

@[simp] theorem setVhM_facesL (M : Mesh) (v h : Nat) : (setVhM M v h).facesL = M.facesL := rfl

@[simp] theorem setVhM_opp (M : Mesh) (v h : Nat) : (setVhM M v h).opp = M.opp := rfl

@[simp] theorem setVhM_tgt (M : Mesh) (v h : Nat) : (setVhM M v h).tgt = M.tgt := rfl

@[simp] theorem setVhM_hface (M : Mesh) (v h : Nat) : (setVhM M v h).hface = M.hface := rfl

@[simp] theorem setVhM_fh (M : Mesh) (v h : Nat) : (setVhM M v h).fh = M.fh := rfl

@[simp] theorem setVhM_nxt (M : Mesh) (v h : Nat) : (setVhM M v h).nxt = M.nxt := rfl

@[simp] theorem setVhM_prv (M : Mesh) (v h : Nat) : (setVhM M v h).prv = M.prv := rfl

@[simp] theorem setFaceM_vertsL (M : Mesh) (h f) : (setFaceM M h f).vertsL = M.vertsL := rfl

@[simp] theorem setFaceM_hedgesL (M : Mesh) (h f) : (setFaceM M h f).hedgesL = M.hedgesL := rfl

@[simp] theorem setFaceM_edgesL (M : Mesh) (h f) : (setFaceM M h f).edgesL = M.edgesL := rfl

@[simp] theorem setFaceM_facesL (M : Mesh) (h f) : (setFaceM M h f).facesL = M.facesL := rfl

@[simp] theorem setFaceM_opp (M : Mesh) (h f) : (setFaceM M h f).opp = M.opp := rfl

@[simp] theorem setFaceM_tgt (M : Mesh) (h f) : (setFaceM M h f).tgt = M.tgt := rfl

@[simp] theorem setFaceM_nxt (M : Mesh) (h f) : (setFaceM M h f).nxt = M.nxt := rfl

@[simp] theorem setFaceM_prv (M : Mesh) (h f) : (setFaceM M h f).prv = M.prv := rfl

@[simp] theorem setFaceM_fh (M : Mesh) (h f) : (setFaceM M h f).fh = M.fh := rfl

@[simp] theorem setFaceM_hface (M : Mesh) (h f) : (setFaceM M h f).hface = upd M.hface h f := rfl

@[simp] theorem removeEdgeM_vertsL (M : Mesh) (e : Nat) : (removeEdgeM M e).vertsL = M.vertsL := rfl

@[simp] theorem removeEdgeM_facesL (M : Mesh) (e : Nat) : (removeEdgeM M e).facesL = M.facesL := rfl

@[simp] theorem removeEdgeM_opp (M : Mesh) (e : Nat) : (removeEdgeM M e).opp = M.opp := rfl

@[simp] theorem removeEdgeM_tgt (M : Mesh) (e : Nat) : (removeEdgeM M e).tgt = M.tgt := rfl

@[simp] theorem removeEdgeM_nxt (M : Mesh) (e : Nat) : (removeEdgeM M e).nxt = M.nxt := rfl

@[simp] theorem removeEdgeM_prv (M : Mesh) (e : Nat) : (removeEdgeM M e).prv = M.prv := rfl

@[simp] theorem removeEdgeM_hface (M : Mesh) (e : Nat) : (removeEdgeM M e).hface = M.hface := rfl

@[simp] theorem removeEdgeM_fh (M : Mesh) (e : Nat) : (removeEdgeM M e).fh = M.fh := rfl

@[simp] theorem removeEdgeM_hedgesL (M : Mesh) (e : Nat) :
    (removeEdgeM M e).hedgesL = M.hedgesL.filter (fun x => x ≠ e ∧ x ≠ M.opp e) := rfl

@[simp] theorem removeEdgeM_edgesL (M : Mesh) (e : Nat) :
    (removeEdgeM M e).edgesL = M.edgesL.filter (fun x => x ≠ e ∧ x ≠ M.opp e) := rfl

theorem mem_removeEdgeM_hedgesL {M : Mesh} {e x : Nat} :
    x ∈ (removeEdgeM M e).hedgesL ↔ x ∈ M.hedgesL ∧ x ≠ e ∧ x ≠ M.opp e := by
  simp [removeEdgeM_hedgesL, List.mem_filter]

@[simp] theorem spliceBoth_vertsL (M : Mesh) (e : Nat) : (spliceBoth M e).vertsL = M.vertsL := rfl

@[simp] theorem spliceBoth_facesL (M : Mesh) (e : Nat) : (spliceBoth M e).facesL = M.facesL := rfl

@[simp] theorem spliceBoth_opp (M : Mesh) (e : Nat) : (spliceBoth M e).opp = M.opp := rfl

@[simp] theorem spliceBoth_tgt (M : Mesh) (e : Nat) : (spliceBoth M e).tgt = M.tgt := rfl

@[simp] theorem spliceBoth_hface (M : Mesh) (e : Nat) : (spliceBoth M e).hface = M.hface := rfl

@[simp] theorem spliceBoth_fh (M : Mesh) (e : Nat) : (spliceBoth M e).fh = M.fh := rfl

@[simp] theorem spliceV_vertsL (M : Mesh) (e : Nat) : (spliceV M e).vertsL = M.vertsL := rfl

@[simp] theorem spliceV_facesL (M : Mesh) (e : Nat) : (spliceV M e).facesL = M.facesL := rfl

@[simp] theorem spliceV_opp (M : Mesh) (e : Nat) : (spliceV M e).opp = M.opp := rfl

@[simp] theorem spliceV_tgt (M : Mesh) (e : Nat) : (spliceV M e).tgt = M.tgt := rfl

@[simp] theorem spliceV_hface (M : Mesh) (e : Nat) : (spliceV M e).hface = M.hface := rfl

@[simp] theorem spliceV_fh (M : Mesh) (e : Nat) : (spliceV M e).fh = M.fh := rfl

@[simp] theorem spliceW_vertsL (M : Mesh) (e : Nat) : (spliceW M e).vertsL = M.vertsL := rfl

@[simp] theorem spliceW_facesL (M : Mesh) (e : Nat) : (spliceW M e).facesL = M.facesL := rfl

@[simp] theorem spliceW_opp (M : Mesh) (e : Nat) : (spliceW M e).opp = M.opp := rfl

@[simp] theorem spliceW_tgt (M : Mesh) (e : Nat) : (spliceW M e).tgt = M.tgt := rfl

@[simp] theorem spliceW_hface (M : Mesh) (e : Nat) : (spliceW M e).hface = M.hface := rfl

@[simp] theorem spliceW_fh (M : Mesh) (e : Nat) : (spliceW M e).fh = M.fh := rfl

theorem spliceV_nxt (M : Mesh) (e : Nat) :
    (spliceV M e).nxt = upd M.nxt (M.prv e) (M.nxt (M.opp e)) := rfl

theorem spliceV_prv (M : Mesh) (e : Nat) :
    (spliceV M e).prv = upd M.prv (M.nxt (M.opp e)) (M.prv e) := rfl

theorem spliceW_nxt (M : Mesh) (e : Nat) :
    (spliceW M e).nxt = upd M.nxt (M.prv (M.opp e)) (M.nxt e) := rfl

theorem spliceW_prv (M : Mesh) (e : Nat) :
    (spliceW M e).prv = upd M.prv (M.nxt e) (M.prv (M.opp e)) := rfl

theorem mem_spliceBoth_hedgesL {M : Mesh} {e y : Nat} :
    y ∈ (spliceBoth M e).hedgesL ↔ y ∈ M.hedgesL ∧ y ≠ e ∧ y ≠ M.opp e := by
  unfold spliceBoth
  rw [mem_removeEdgeM_hedgesL]
  simp only [setNextM_hedgesL, setNextM_opp]

theorem mem_spliceV_hedgesL {M : Mesh} {e y : Nat} :
    y ∈ (spliceV M e).hedgesL ↔ y ∈ M.hedgesL ∧ y ≠ e ∧ y ≠ M.opp e := by
  unfold spliceV
  rw [mem_removeEdgeM_hedgesL]
  simp only [setNextM_hedgesL, setNextM_opp]

theorem mem_spliceW_hedgesL {M : Mesh} {e y : Nat} :
    y ∈ (spliceW M e).hedgesL ↔ y ∈ M.hedgesL ∧ y ≠ e ∧ y ≠ M.opp e := by
  unfold spliceW
  rw [mem_removeEdgeM_hedgesL]
  simp only [setNextM_hedgesL, setNextM_opp]

/-- `processEdge` never touches the face list. -/
theorem processEdge_facesL (kv fcmB) (M : Mesh) (e : Nat) :
    (processEdge kv fcmB M e).facesL = M.facesL := by
  unfold processEdge
  dsimp only
  split_ifs <;> rfl

/-- `processEdge` never touches the vertex list. -/
theorem processEdge_vertsL (kv fcmB) (M : Mesh) (e : Nat) :
    (processEdge kv fcmB M e).vertsL = M.vertsL := by
  unfold processEdge
  dsimp only
  split_ifs <;> rfl

/-- `processEdge` never touches `opposite`. -/
theorem processEdge_opp (kv fcmB) (M : Mesh) (e : Nat) :
    (processEdge kv fcmB M e).opp = M.opp := by
  unfold processEdge
  dsimp only
  split_ifs <;> rfl

/-- `processEdge` never touches `target`. -/
theorem processEdge_tgt (kv fcmB) (M : Mesh) (e : Nat) :
    (processEdge kv fcmB M e).tgt = M.tgt := by
  unfold processEdge
  dsimp only
  split_ifs <;> rfl

/-- `processEdge` never touches the faces' reference halfedges. -/
theorem processEdge_fh (kv fcmB) (M : Mesh) (e : Nat) :
    (processEdge kv fcmB M e).fh = M.fh := by
  unfold processEdge
  dsimp only
  split_ifs <;> rfl

/-! ## The three passes of `keep_or_remove_connected_components` -/

theorem edgeFold_facesL (kv fcmB) :
    ∀ (l : List Nat) (M : Mesh), (l.foldl (processEdge kv fcmB) M).facesL = M.facesL := by
  intro l
  induction l with
  | nil => intro M; rfl
  | cons e l ih => intro M; rw [List.foldl_cons, ih, processEdge_facesL]

theorem edgeFold_vertsL (kv fcmB) :
    ∀ (l : List Nat) (M : Mesh), (l.foldl (processEdge kv fcmB) M).vertsL = M.vertsL := by
  intro l
  induction l with
  | nil => intro M; rfl
  | cons e l ih => intro M; rw [List.foldl_cons, ih, processEdge_vertsL]

theorem edgeFold_opp (kv fcmB) :
    ∀ (l : List Nat) (M : Mesh), (l.foldl (processEdge kv fcmB) M).opp = M.opp := by
  intro l
  induction l with
  | nil => intro M; rfl
  | cons e l ih => intro M; rw [List.foldl_cons, ih, processEdge_opp]

theorem edgeFold_tgt (kv fcmB) :
    ∀ (l : List Nat) (M : Mesh), (l.foldl (processEdge kv fcmB) M).tgt = M.tgt := by
  intro l
  induction l with
  | nil => intro M; rfl
  | cons e l ih => intro M; rw [List.foldl_cons, ih, processEdge_tgt]

theorem edgeFold_fh (kv fcmB) :
    ∀ (l : List Nat) (M : Mesh), (l.foldl (processEdge kv fcmB) M).fh = M.fh := by
  intro l
  induction l with
  | nil => intro M; rfl
  | cons e l ih => intro M; rw [List.foldl_cons, ih, processEdge_fh]

/-- The face-erasure pass only touches the face list. -/
theorem faceFold_frame (fcmB : Nat → Nat) :
    ∀ (l : List Nat) (M : Mesh),
      (l.foldl (fun Mc f => if fcmB f ≠ 1 then removeFaceM Mc f else Mc) M).vertsL
          = M.vertsL ∧
      (l.foldl (fun Mc f => if fcmB f ≠ 1 then removeFaceM Mc f else Mc) M).hedgesL
          = M.hedgesL ∧
      (l.foldl (fun Mc f => if fcmB f ≠ 1 then removeFaceM Mc f else Mc) M).tgt
          = M.tgt ∧
      (l.foldl (fun Mc f => if fcmB f ≠ 1 then removeFaceM Mc f else Mc) M).opp
          = M.opp ∧
      (l.foldl (fun Mc f => if fcmB f ≠ 1 then removeFaceM Mc f else Mc) M).nxt
          = M.nxt ∧
      (l.foldl (fun Mc f => if fcmB f ≠ 1 then removeFaceM Mc f else Mc) M).hface
          = M.hface := by
  intro l
  induction l with
  | nil => intro M; exact ⟨rfl, rfl, rfl, rfl, rfl, rfl⟩
  | cons f l ih =>
      intro M
      rw [List.foldl_cons]
      rcases ih (if fcmB f ≠ 1 then removeFaceM M f else M) with ⟨h1, h2, h3, h4, h5, h6⟩
      refine ⟨?_, ?_, ?_, ?_, ?_, ?_⟩ <;>
        first
          | (rw [h1]; split <;> rfl)
          | (rw [h2]; split <;> rfl)
          | (rw [h3]; split <;> rfl)
          | (rw [h4]; split <;> rfl)
          | (rw [h5]; split <;> rfl)
          | (rw [h6]; split <;> rfl)

/-- Membership after erasing one face. -/
theorem mem_removeFaceM {M : Mesh} {f x : Nat} :
    x ∈ (removeFaceM M f).facesL ↔ x ∈ M.facesL ∧ x ≠ f := by
  simp [removeFaceM, List.mem_filter]

/-- Membership after erasing one vertex. -/
theorem mem_removeVertexM {M : Mesh} {v x : Nat} :
    x ∈ (removeVertexM M v).vertsL ↔ x ∈ M.vertsL ∧ x ≠ v := by
  simp [removeVertexM, List.mem_filter]

/-- Membership in the face list after the face-erasure pass. -/
theorem faceFold_mem (fcmB : Nat → Nat) :
    ∀ (l : List Nat) (M : Mesh) (x : Nat),
      (x ∈ (l.foldl (fun Mc f => if fcmB f ≠ 1 then removeFaceM Mc f else Mc) M).facesL
        ↔ x ∈ M.facesL ∧ (fcmB x = 1 ∨ x ∉ l)) := by
  intro l
  induction l with
  | nil => intro M x; simp
  | cons f l ih =>
      intro M x
      rw [List.foldl_cons, ih]
      by_cases hf : fcmB f = 1
      · rw [if_neg (by simp [hf])]
        constructor
        · rintro ⟨hx, h1 | h2⟩
          · exact ⟨hx, Or.inl h1⟩
          · by_cases hxf : x = f
            · exact ⟨hx, Or.inl (hxf ▸ hf)⟩
            · exact ⟨hx, Or.inr (by simp [List.mem_cons, hxf, h2])⟩
        · rintro ⟨hx, h1 | h2⟩
          · exact ⟨hx, Or.inl h1⟩
          · exact ⟨hx, Or.inr (fun hm => h2 (List.mem_cons_of_mem f hm))⟩
      · rw [if_pos hf, mem_removeFaceM]
        constructor
        · rintro ⟨⟨hx, hxf⟩, h1 | h2⟩
          · exact ⟨hx, Or.inl h1⟩
          · exact ⟨hx, Or.inr (by simp [List.mem_cons, hxf, h2])⟩
        · rintro ⟨hx, h1 | h2⟩
          · refine ⟨⟨hx, ?_⟩, Or.inl h1⟩
            rintro rfl; exact hf h1
          · rw [List.mem_cons, not_or] at h2
            exact ⟨⟨hx, h2.1⟩, Or.inr h2.2⟩

/-- The vertex-erasure pass only touches the vertex list. -/
theorem vertFold_frame (kv : Nat → Bool) :
    ∀ (l : List Nat) (M : Mesh),
      (l.foldl (fun Mc v => if !kv v then removeVertexM Mc v else Mc) M).facesL
          = M.facesL ∧
      (l.foldl (fun Mc v => if !kv v then removeVertexM Mc v else Mc) M).hedgesL
          = M.hedgesL ∧
      (l.foldl (fun Mc v => if !kv v then removeVertexM Mc v else Mc) M).tgt
          = M.tgt ∧
      (l.foldl (fun Mc v => if !kv v then removeVertexM Mc v else Mc) M).opp
          = M.opp ∧
      (l.foldl (fun Mc v => if !kv v then removeVertexM Mc v else Mc) M).nxt
          = M.nxt ∧
      (l.foldl (fun Mc v => if !kv v then removeVertexM Mc v else Mc) M).hface
          = M.hface := by
  intro l
  induction l with
  | nil => intro M; exact ⟨rfl, rfl, rfl, rfl, rfl, rfl⟩
  | cons v l ih =>
      intro M
      rw [List.foldl_cons]
      rcases ih (if !kv v then removeVertexM M v else M) with ⟨h1, h2, h3, h4, h5, h6⟩
      refine ⟨?_, ?_, ?_, ?_, ?_, ?_⟩ <;>
        first
          | (rw [h1]; split <;> rfl)
          | (rw [h2]; split <;> rfl)
          | (rw [h3]; split <;> rfl)
          | (rw [h4]; split <;> rfl)
          | (rw [h5]; split <;> rfl)
          | (rw [h6]; split <;> rfl)

/-- Membership in the vertex list after the vertex-erasure pass. -/
theorem vertFold_mem (kv : Nat → Bool) :
    ∀ (l : List Nat) (M : Mesh) (x : Nat),
      (x ∈ (l.foldl (fun Mc v => if !kv v then removeVertexM Mc v else Mc) M).vertsL
        ↔ x ∈ M.vertsL ∧ (kv x = true ∨ x ∉ l)) := by
  intro l
  induction l with
  | nil => intro M x; simp
  | cons v l ih =>
      intro M x
      rw [List.foldl_cons, ih]
      by_cases hv : kv v = true
      · rw [if_neg (by simp [hv])]
        constructor
        · rintro ⟨hx, h1 | h2⟩
          · exact ⟨hx, Or.inl h1⟩
          · by_cases hxv : x = v
            · exact ⟨hx, Or.inl (hxv ▸ hv)⟩
            · exact ⟨hx, Or.inr (by simp [List.mem_cons, hxv, h2])⟩
        · rintro ⟨hx, h1 | h2⟩
          · exact ⟨hx, Or.inl h1⟩
          · exact ⟨hx, Or.inr (fun hm => h2 (List.mem_cons_of_mem v hm))⟩
      · rw [if_pos (by simp [hv]), mem_removeVertexM]
        constructor
        · rintro ⟨⟨hx, hxv⟩, h1 | h2⟩
          · exact ⟨hx, Or.inl h1⟩
          · exact ⟨hx, Or.inr (by simp [List.mem_cons, hxv, h2])⟩
        · rintro ⟨hx, h1 | h2⟩
          · refine ⟨⟨hx, ?_⟩, Or.inl h1⟩
            rintro rfl; exact hv h1
          · rw [List.mem_cons, not_or] at h2
            exact ⟨⟨hx, h2.1⟩, Or.inr h2.2⟩

/-- The faces surviving `keep_or_remove_connected_components` are exactly
the faces whose (rewritten) component value is `1`. -/
theorem kor_faces_mem (M : Mesh) (ids : List Nat) (fcm : Nat → Nat) (keep : Bool)
    (x : Nat) :
    x ∈ (keep_or_remove_connected_components M ids fcm keep).1.facesL ↔
      x ∈ M.facesL ∧ fcmReset ids keep fcm x = 1 := by
  unfold keep_or_remove_connected_components
  dsimp only
  rw [(vertFold_frame _ _ _).1, faceFold_mem, edgeFold_facesL]
  constructor
  · rintro ⟨hx, h1 | h2⟩
    · exact ⟨hx, h1⟩
    · exact absurd hx h2
  · rintro ⟨hx, h1⟩
    exact ⟨hx, Or.inl h1⟩

/-- The vertices surviving `keep_or_remove_connected_components` are
exactly the kept vertices. -/
theorem kor_verts_mem (M : Mesh) (ids : List Nat) (fcm : Nat → Nat) (keep : Bool)
    (x : Nat) :
    x ∈ (keep_or_remove_connected_components M ids fcm keep).1.vertsL ↔
      x ∈ M.vertsL ∧ keepVertexF M (fcmReset ids keep fcm) x = true := by
  unfold keep_or_remove_connected_components
  dsimp only
  rw [vertFold_mem, (faceFold_frame _ _ _).1, edgeFold_vertsL]
  constructor
  · rintro ⟨hx, h1 | h2⟩
    · exact ⟨hx, h1⟩
    · exact absurd hx h2
  · rintro ⟨hx, h1⟩
    exact ⟨hx, Or.inl h1⟩

/-- When both endpoints are unkept, the loop body just removes the edge. -/
theorem processEdge_allFalse (kv : Nat → Bool) (fcmB : Nat → Nat) (M : Mesh) (e : Nat)
    (hv : kv (M.tgt (M.opp e)) = false) (hw : kv (M.tgt e) = false) :
    processEdge kv fcmB M e = removeEdgeM M e := by
  unfold processEdge
  dsimp only
  rw [if_pos (by simp [hv, hw])]

/-- If no vertex is kept and the edge snapshot covers every halfedge, the
edge loop removes every halfedge. -/
theorem edgeFold_removeAll (kv : Nat → Bool) (fcmB : Nat → Nat)
    (hkv : ∀ v, kv v = false) :
    ∀ (l : List Nat) (M : Mesh),
      (∀ x ∈ M.hedgesL, M.opp (M.opp x) = x) →
      (∀ x ∈ M.hedgesL, x ∈ l ∨ M.opp x ∈ l) →
      (l.foldl (processEdge kv fcmB) M).hedgesL = [] := by
  intro l
  induction l with
  | nil =>
      intro M _ hcov
      rw [List.foldl_nil]
      rw [List.eq_nil_iff_forall_not_mem]
      intro x hx
      rcases hcov x hx with h | h
      · exact (List.not_mem_nil x) h
      · exact (List.not_mem_nil _) h
  | cons e l ih =>
      intro M hinv hcov
      rw [List.foldl_cons, processEdge_allFalse kv fcmB M e (hkv _) (hkv _)]
      refine ih (removeEdgeM M e) ?_ ?_
      · intro x hx
        rw [mem_removeEdgeM_hedgesL] at hx
        simp only [removeEdgeM_opp]
        exact hinv x hx.1
      · intro x hx
        rw [mem_removeEdgeM_hedgesL] at hx
        rcases hx with ⟨hx, hne, hno⟩
        simp only [removeEdgeM_opp]
        rcases hcov x hx with h | h
        · rcases List.mem_cons.mp h with h1 | h2
          · exact absurd h1 hne
          · exact Or.inl h2
        · rcases List.mem_cons.mp h with h1 | h2
          · exfalso
            exact hno (by rw [← hinv x hx, h1])
          · exact Or.inr h2

/-- With an empty keep set every face's rewritten `fcm` value is 0. -/
theorem fcmReset_empty_keep (fcm : Nat → Nat) (f : Nat) :
    fcmReset [] true fcm f = 0 := by
  simp [fcmReset]

/-- With an empty keep set no vertex is kept. -/
theorem keepVertexF_empty_keep (M : Mesh) (fcm : Nat → Nat) (v : Nat) :
    keepVertexF M (fcmReset [] true fcm) v = false := by
  simp [keepVertexF, fcmReset]

/-- C9.  `remove_connected_components` with an empty component range
returns immediately: the mesh and the face-component map are returned
untouched. -/
theorem remove_cc_empty_noop (M : Mesh) (fcm : Nat → Nat) :
    remove_connected_componentsM M [] fcm = (M, fcm) := rfl

/-- C4.  `keep_largest_connected_components(pmesh, 0, np)` clears the
mesh (no vertex, halfedge or face remains) and returns the number of
connected components the mesh had before the call. -/
theorem keep_largest_zero_clears (M : Mesh) (ecm : Nat → Bool) :
    (keep_largest_connected_components M 0 ecm).1.vertsL = [] ∧
    (keep_largest_connected_components M 0 ecm).1.hedgesL = [] ∧
    (keep_largest_connected_components M 0 ecm).1.facesL = [] ∧
    (keep_largest_connected_components M 0 ecm).2 = (connected_componentsM M ecm).2 := by
  unfold keep_largest_connected_components
  simp [emptyMesh]

/-- C10.  `keep_connected_components` with an empty keep range is not a
no-op: every face, every vertex and every halfedge of the mesh is
removed. -/
theorem keep_cc_empty_removes_everything (M : Mesh) (fcm : Nat → Nat) (hw : Wf M) :
    (keep_connected_componentsM M [] fcm).1.facesL = [] ∧
    (keep_connected_componentsM M [] fcm).1.vertsL = [] ∧
    (keep_connected_componentsM M [] fcm).1.hedgesL = [] := by
  refine ⟨?_, ?_, ?_⟩
  · rw [List.eq_nil_iff_forall_not_mem]
    intro x hx
    rw [keep_connected_componentsM, kor_faces_mem] at hx
    rw [fcmReset_empty_keep] at hx
    exact absurd hx.2 (by decide)
  · rw [List.eq_nil_iff_forall_not_mem]
    intro x hx
    rw [keep_connected_componentsM, kor_verts_mem] at hx
    rw [keepVertexF_empty_keep] at hx
    exact absurd hx.2 (by decide)
  · rw [keep_connected_componentsM]
    unfold keep_or_remove_connected_components
    dsimp only
    rw [(vertFold_frame _ _ _).2.1, (faceFold_frame _ _ _).2.1]
    exact edgeFold_removeAll _ _ (keepVertexF_empty_keep M fcm) M.edgesL M
      hw.opp_invol hw.edges_cover

/-- Witness for C10 at the concrete triangle `W1`. -/
theorem keep_cc_empty_removes_everything_witness :
    Wf W1 ∧
    ((keep_connected_componentsM W1 [] (fun f => f)).1.facesL = [] ∧
     (keep_connected_componentsM W1 [] (fun f => f)).1.vertsL = [] ∧
     (keep_connected_componentsM W1 [] (fun f => f)).1.hedgesL = []) :=
  ⟨W1_wf, keep_cc_empty_removes_everything W1 (fun f => f) W1_wf⟩

/-- Counterexample to C3 as stated: `W2` has 2 connected components and an
isolated vertex; `keep_largest_connected_components(W2, 2)` satisfies
`k ≥ count` and `k > 0`, yet the mesh is changed (the isolated vertex is
removed). -/
theorem keep_largest_k_eq_count_not_noop :
    (connected_componentsM W2 ecm0).2 ≤ 2 ∧ 0 < 2 ∧
    (keep_largest_connected_components W2 2 ecm0).1.vertsL ≠ W2.vertsL := by
  decide

/-- C3 (amended).  When `k` strictly exceeds the number of connected
components, or there is exactly one component (and `k > 0`), the call is
a no-op returning 0.  (At `k = count > 1` the code proceeds with the
keep pass, which also erases isolated vertices, so the mesh can change.) -/
theorem keep_largest_noop_of_gt (M : Mesh) (ecm : Nat → Bool) (k : Nat)
    (hk : 0 < k)
    (h : (connected_componentsM M ecm).2 < k ∨ (connected_componentsM M ecm).2 = 1) :
    keep_largest_connected_components M k ecm = (M, 0) := by
  unfold keep_largest_connected_components
  dsimp only
  rw [if_neg (by omega), if_pos (by tauto)]

/-- Witness for the amended C3 at the concrete triangle `W1`, `k = 5`. -/
theorem keep_largest_noop_of_gt_witness :
    0 < 5 ∧
    ((connected_componentsM W1 ecm0).2 < 5 ∨ (connected_componentsM W1 ecm0).2 = 1) ∧
    keep_largest_connected_components W1 5 ecm0 = (W1, 0) :=
  ⟨by decide, by decide,
   keep_largest_noop_of_gt W1 ecm0 5 (by decide) (by decide)⟩

/-! ## C1: correctness of the seed DFS -/

theorem length_nextIter (M : Mesh) (h0 : Nat) :
    ∀ (fuel h : Nat), (nextIter M h0 fuel h).length ≤ fuel := by
  intro fuel
  induction fuel with
  | zero => intro h; simp [nextIter]
  | succ fuel ih =>
      intro h
      rw [nextIter]
      by_cases hnx : M.nxt h = h0
      · simp [hnx]
      · simp only [if_neg hnx, List.length_cons]
        exact Nat.succ_le_succ (ih _)

theorem nbrsL_length_le (M : Mesh) (ecm : Nat → Bool) (f : Nat) :
    (nbrsL M ecm f).length ≤ M.hedgesL.length := by
  refine le_trans (List.length_filterMap_le _ _) ?_
  unfold faceCycle
  exact length_nextIter M (M.fh f) _ _

/-- Unfolding membership in the pushed-neighbours list. -/
theorem mem_nbrsL (M : Mesh) (ecm : Nat → Bool) (f g : Nat) :
    g ∈ nbrsL M ecm f ↔
      ∃ hd ∈ faceCycle M (M.fh f),
        ecm hd = false ∧ M.hface (M.opp hd) = some g ∧ g ∈ M.facesL := by
  unfold nbrsL
  rw [List.mem_filterMap]
  constructor
  · rintro ⟨hd, hmem, hfn⟩
    refine ⟨hd, hmem, ?_⟩
    by_cases hecm : ecm hd = true
    · rw [if_pos hecm] at hfn; cases hfn
    · rw [if_neg hecm] at hfn
      rcases hh : M.hface (M.opp hd) with _ | g'
      · simp only [hh] at hfn
        cases hfn
      · simp only [hh] at hfn
        by_cases hc : g' ∈ M.facesL
        · rw [if_pos hc] at hfn
          obtain rfl := Option.some.inj hfn
          exact ⟨Bool.eq_false_iff.mpr hecm, rfl, hc⟩
        · rw [if_neg hc] at hfn; cases hfn
  · rintro ⟨hd, hmem, hecm, hh, hgf⟩
    refine ⟨hd, hmem, ?_⟩
    rw [if_neg (by simp [hecm])]
    simp only [hh]
    rw [if_pos hgf]

theorem nbrsL_sub_faces (M : Mesh) (ecm : Nat → Bool) (f g : Nat)
    (h : g ∈ nbrsL M ecm f) : g ∈ M.facesL :=
  ((mem_nbrsL M ecm f g).mp h).choose_spec.2.2.2

/-- Soundness of the DFS: everything emitted is reachable (via the
pushed-neighbour relation) from some stack entry. -/
theorem ccDfs_sound (M : Mesh) (ecm : Nat → Bool) :
    ∀ (fuel : Nat) (stack : List Nat) (vis : Finset Nat),
      ∀ g ∈ ccDfs M ecm fuel stack vis,
        ∃ s ∈ stack, Relation.ReflTransGen (fun a b => b ∈ nbrsL M ecm a) s g := by
  intro fuel
  induction fuel with
  | zero => intro stack vis g hg; cases hg
  | succ fuel ih =>
      intro stack vis g hg
      match stack with
      | [] => cases hg
      | f :: rest =>
          have hD : ccDfs M ecm (fuel + 1) (f :: rest) vis =
              if f ∈ vis then ccDfs M ecm fuel rest vis
              else f :: ccDfs M ecm fuel ((nbrsL M ecm f).reverse ++ rest) (insert f vis) := rfl
          rw [hD] at hg
          by_cases hf : f ∈ vis
          · rw [if_pos hf] at hg
            obtain ⟨s, hs, hr⟩ := ih rest vis g hg
            exact ⟨s, List.mem_cons_of_mem f hs, hr⟩
          · rw [if_neg hf] at hg
            rcases List.mem_cons.mp hg with rfl | hg'
            · exact ⟨g, List.mem_cons_self g rest, Relation.ReflTransGen.refl⟩
            · obtain ⟨s, hs, hr⟩ := ih _ _ g hg'
              rcases List.mem_append.mp hs with hs1 | hs2
              · refine ⟨f, List.mem_cons_self f rest, ?_⟩
                exact Relation.ReflTransGen.head (List.mem_reverse.mp hs1) hr
              · exact ⟨s, List.mem_cons_of_mem f hs2, hr⟩

/-- Completeness of the DFS, as a saturation property: with enough fuel,
every stack entry is visited or emitted, and the emitted set is closed
under the pushed-neighbour relation (up to the initially visited set). -/
theorem ccDfs_complete (M : Mesh) (ecm : Nat → Bool) :
    ∀ (fuel : Nat) (stack : List Nat) (vis : Finset Nat),
      (∀ s ∈ stack, s ∈ M.facesL) →
      (M.facesL.toFinset \ vis).card * (M.hedgesL.length + 1) + stack.length ≤ fuel →
      (∀ s ∈ stack, s ∈ vis ∨ s ∈ ccDfs M ecm fuel stack vis) ∧
      (∀ x ∈ ccDfs M ecm fuel stack vis, ∀ y ∈ nbrsL M ecm x,
          y ∈ vis ∨ y ∈ ccDfs M ecm fuel stack vis) := by
  intro fuel
  induction fuel with
  | zero =>
      intro stack vis hs hfuel
      have hlen : stack.length = 0 := by omega
      rw [List.length_eq_zero] at hlen
      subst hlen
      exact ⟨fun s hs' => absurd hs' (List.not_mem_nil s), fun x hx => absurd hx (List.not_mem_nil x)⟩
  | succ fuel ih =>
      intro stack vis hs hfuel
      match stack with
      | [] => exact ⟨fun s hs' => absurd hs' (List.not_mem_nil s), fun x hx => absurd hx (List.not_mem_nil x)⟩
      | f :: rest =>
          have hD : ccDfs M ecm (fuel + 1) (f :: rest) vis =
              if f ∈ vis then ccDfs M ecm fuel rest vis
              else f :: ccDfs M ecm fuel ((nbrsL M ecm f).reverse ++ rest) (insert f vis) := rfl
          by_cases hf : f ∈ vis
          · rw [hD, if_pos hf]
            have hμ : (M.facesL.toFinset \ vis).card * (M.hedgesL.length + 1)
                + rest.length ≤ fuel := by
              have := hfuel
              simp only [List.length_cons] at this
              omega
            obtain ⟨h1, h2⟩ := ih rest vis (fun s hs' => hs s (List.mem_cons_of_mem f hs')) hμ
            refine ⟨?_, h2⟩
            intro s hs'
            rcases List.mem_cons.mp hs' with rfl | hs''
            · exact Or.inl hf
            · exact h1 s hs''
          · rw [hD, if_neg hf]
            -- the newly visited face strictly shrinks the unvisited count
            have hfF : f ∈ M.facesL.toFinset \ vis := by
              rw [Finset.mem_sdiff, List.mem_toFinset]
              exact ⟨hs f (List.mem_cons_self f rest), hf⟩
            have hcard : ((M.facesL.toFinset \ insert f vis)).card + 1
                = (M.facesL.toFinset \ vis).card := by
              rw [Finset.sdiff_insert]
              exact Finset.card_erase_add_one hfF
            have hstack' : ∀ s ∈ (nbrsL M ecm f).reverse ++ rest, s ∈ M.facesL := by
              intro s hs'
              rcases List.mem_append.mp hs' with h1 | h2
              · exact nbrsL_sub_faces M ecm f s (List.mem_reverse.mp h1)
              · exact hs s (List.mem_cons_of_mem f h2)
            have hμ : (M.facesL.toFinset \ insert f vis).card * (M.hedgesL.length + 1)
                + ((nbrsL M ecm f).reverse ++ rest).length ≤ fuel := by
              have hlen : ((nbrsL M ecm f).reverse ++ rest).length
                  = (nbrsL M ecm f).length + rest.length := by
                simp
              have hnle : (nbrsL M ecm f).length ≤ M.hedgesL.length :=
                nbrsL_length_le M ecm f
              have hexp : (M.facesL.toFinset \ vis).card * (M.hedgesL.length + 1)
                  = (M.facesL.toFinset \ insert f vis).card * (M.hedgesL.length + 1)
                    + (M.hedgesL.length + 1) := by
                rw [← hcard, Nat.add_mul, Nat.one_mul]
              simp only [List.length_cons] at hfuel
              rw [hexp] at hfuel
              omega
            obtain ⟨h1, h2⟩ := ih _ _ hstack' hμ
            constructor
            · intro s hs'
              rcases List.mem_cons.mp hs' with rfl | hs''
              · exact Or.inr (List.mem_cons_self _ _)
              · rcases h1 s (List.mem_append_right _ hs'') with hv | hd
                · rcases Finset.mem_insert.mp hv with rfl | hv'
                  · exact Or.inr (List.mem_cons_self _ _)
                  · exact Or.inl hv'
                · exact Or.inr (List.mem_cons_of_mem _ hd)
            · intro x hx y hy
              rcases List.mem_cons.mp hx with rfl | hx'
              · rcases h1 y (List.mem_append_left _ (List.mem_reverse.mpr hy)) with hv | hd
                · rcases Finset.mem_insert.mp hv with rfl | hv'
                  · exact Or.inr (List.mem_cons_self _ _)
                  · exact Or.inl hv'
                · exact Or.inr (List.mem_cons_of_mem _ hd)
              · rcases h2 x hx' y hy with hv | hd
                · rcases Finset.mem_insert.mp hv with rfl | hv'
                  · exact Or.inr (List.mem_cons_self _ _)
                  · exact Or.inl hv'
                · exact Or.inr (List.mem_cons_of_mem _ hd)

/-- On a well-formed mesh, membership in the pushed-neighbour list is
exactly the spec's adjacency across a non-border, non-constrained edge. -/
theorem nbrsL_iff_AdjE (M : Mesh) (ecm : Nat → Bool) (hw : Wf M) (f : Nat)
    (hf : f ∈ M.facesL) (g : Nat) :
    g ∈ nbrsL M ecm f ↔ AdjE M ecm f g := by
  rw [mem_nbrsL]
  constructor
  · rintro ⟨hd, hmem, hecm, hh, _⟩
    obtain ⟨hdm, hdf⟩ := hw.faceCycle_sound f hf hd hmem
    exact ⟨hd, hdm, hdf, hh, hecm⟩
  · rintro ⟨h, hm, hhf, hof, hecm⟩
    refine ⟨h, hw.faceCycle_complete f hf h hm hhf, hecm, hof, ?_⟩
    have hom := hw.opp_mem h hm
    have := hw.face_mem (M.opp h) hom
    rw [hof] at this
    unfold optFaceIn at this
    simpa using this

/-- An adjacency step lands on a listed face. -/
theorem AdjE_mem_left (M : Mesh) (ecm : Nat → Bool) (hw : Wf M) {f g : Nat}
    (h : AdjE M ecm f g) : f ∈ M.facesL := by
  rcases h with ⟨hd, hm, hhf, _, _⟩
  have := hw.face_mem hd hm
  rw [hhf] at this
  unfold optFaceIn at this
  simpa using this

theorem AdjE_mem_right (M : Mesh) (ecm : Nat → Bool) (hw : Wf M) {f g : Nat}
    (h : AdjE M ecm f g) : g ∈ M.facesL := by
  rcases h with ⟨hd, hm, _, hof, _⟩
  have hom := hw.opp_mem hd hm
  have := hw.face_mem (M.opp hd) hom
  rw [hof] at this
  unfold optFaceIn at this
  simpa using this

/-- Reachability via pushed neighbours lands on faces and agrees with
`Reach`. -/
theorem reach_nbrs_to_reach (M : Mesh) (ecm : Nat → Bool) (hw : Wf M) (seed : Nat)
    (hseed : seed ∈ M.facesL) (g : Nat)
    (h : Relation.ReflTransGen (fun a b => b ∈ nbrsL M ecm a) seed g) :
    g ∈ M.facesL ∧ Reach M ecm seed g := by
  induction h with
  | refl => exact ⟨hseed, Relation.ReflTransGen.refl⟩
  | tail _ hbc ih =>
      have hadj := (nbrsL_iff_AdjE M ecm hw _ ih.1 _).mp hbc
      exact ⟨AdjE_mem_right M ecm hw hadj, ih.2.tail hadj⟩

theorem reach_to_reach_nbrs (M : Mesh) (ecm : Nat → Bool) (hw : Wf M)
    (seed g : Nat) (h : Reach M ecm seed g) :
    Relation.ReflTransGen (fun a b => b ∈ nbrsL M ecm a) seed g := by
  induction h with
  | refl => exact Relation.ReflTransGen.refl
  | tail _ hbc ih =>
      have hb := AdjE_mem_left M ecm hw hbc
      exact ih.tail ((nbrsL_iff_AdjE M ecm hw _ hb _).mpr hbc)

/-- The DFS computes exactly the reachability set of the seed. -/
theorem connected_component_exact (M : Mesh) (ecm : Nat → Bool) (seed : Nat)
    (hw : Wf M) (hseed : seed ∈ M.facesL) :
    seed ∈ connected_component M ecm seed ∧
    (∀ g, g ∈ connected_component M ecm seed ↔ Reach M ecm seed g) := by
  have hμ : (M.facesL.toFinset \ (∅ : Finset Nat)).card * (M.hedgesL.length + 1)
      + [seed].length ≤ ccFuel M := by
    have h1 : (M.facesL.toFinset \ (∅ : Finset Nat)).card ≤ M.facesL.length := by
      rw [Finset.sdiff_empty]
      exact le_trans (M.facesL.toFinset_card_le) (le_refl _)
    unfold ccFuel
    have := Nat.mul_le_mul_right (M.hedgesL.length + 1) h1
    simp only [List.length_cons, List.length_nil]
    nlinarith
  have hstack : ∀ s ∈ [seed], s ∈ M.facesL := by
    intro s hs
    rcases List.mem_cons.mp hs with rfl | h
    · exact hseed
    · cases h
  obtain ⟨h1, h2⟩ := ccDfs_complete M ecm (ccFuel M) [seed] ∅ hstack hμ
  have hseedD : seed ∈ connected_component M ecm seed := by
    rcases h1 seed (List.mem_cons_self _ _) with hv | hd
    · cases hv
    · exact hd
  refine ⟨hseedD, ?_⟩
  intro g
  constructor
  · intro hg
    obtain ⟨s, hsm, hr⟩ := ccDfs_sound M ecm (ccFuel M) [seed] ∅ g hg
    rcases List.mem_cons.mp hsm with rfl | h
    · exact (reach_nbrs_to_reach M ecm hw s hseed g hr).2
    · cases h
  · intro hg
    have hr := reach_to_reach_nbrs M ecm hw seed g hg
    clear hg
    induction hr with
    | refl => exact hseedD
    | tail _ hbc ih =>
        rcases h2 _ ih _ hbc with hv | hd
        · cases hv
        · exact hd

/-- C1.  `connected_component(seed_face, pmesh, out, np)` outputs exactly
the set of faces reachable from the seed through edges that are neither
border edges nor constrained; in particular the seed itself is always
output, and no face outside the reachable set is output. -/
theorem connected_component_spec (M : Mesh) (ecm : Nat → Bool) (seed : Nat)
    (hw : Wf M) (hseed : seed ∈ M.facesL) :
    seed ∈ connected_component M ecm seed ∧
    (∀ g, g ∈ connected_component M ecm seed ↔ Reach M ecm seed g) :=
  connected_component_exact M ecm seed hw hseed

/-- Witness for C1: the two-component mesh `W3`, seed face 0. -/
theorem connected_component_spec_witness :
    Wf W3 ∧ 0 ∈ W3.facesL ∧
    (0 ∈ connected_component W3 ecm0 0 ∧
     (∀ g, g ∈ connected_component W3 ecm0 0 ↔ Reach W3 ecm0 0 g)) :=
  ⟨W3_wf, by decide, connected_component_spec W3 ecm0 0 W3_wf (by decide)⟩

/-! ## C7: the global labeling -/

/-- With an edge-keyed (hence opposite-invariant) constraint map the
adjacency relation is symmetric. -/
theorem AdjE_symm (M : Mesh) (ecm : Nat → Bool) (hw : Wf M)
    (hsym : ∀ h ∈ M.hedgesL, ecm (M.opp h) = ecm h) {f g : Nat}
    (h : AdjE M ecm f g) : AdjE M ecm g f := by
  rcases h with ⟨hd, hm, hhf, hof, hecm⟩
  refine ⟨M.opp hd, hw.opp_mem hd hm, hof, ?_, ?_⟩
  · rw [hw.opp_invol hd hm, hhf]
  · rw [hsym hd hm, hecm]

theorem Reach_symm (M : Mesh) (ecm : Nat → Bool) (hw : Wf M)
    (hsym : ∀ h ∈ M.hedgesL, ecm (M.opp h) = ecm h) {f g : Nat}
    (h : Reach M ecm f g) : Reach M ecm g f := by
  induction h with
  | refl => exact Relation.ReflTransGen.refl
  | tail _ hbc ih =>
      exact Relation.ReflTransGen.trans
        (Relation.ReflTransGen.single (AdjE_symm M ecm hw hsym hbc)) ih

theorem Reach_mem_faces (M : Mesh) (ecm : Nat → Bool) (hw : Wf M) {q g : Nat}
    (hq : q ∈ M.facesL) (h : Reach M ecm q g) : g ∈ M.facesL := by
  induction h with
  | refl => exact hq
  | tail _ hbc _ => exact AdjE_mem_right M ecm hw hbc

/-- One labeling step preserves the labeling invariant. -/
theorem ccStep_inv (M : Mesh) (ecm : Nat → Bool) (hw : Wf M)
    (hsym : ∀ h ∈ M.hedgesL, ecm (M.opp h) = ecm h)
    (pr : List Nat) (p : (Nat → Option Nat) × Nat) (f : Nat)
    (hf : f ∈ M.facesL) (hinv : LabelInv M ecm pr p) :
    LabelInv M ecm (pr ++ [f]) (ccStep M ecm p f) := by
  obtain ⟨inv1, inv2, inv3, inv4⟩ := hinv
  by_cases hlab : (p.1 f).isSome
  · rw [ccStep, if_pos hlab]
    obtain ⟨q0, hq0, hq0f⟩ := (inv1 f).mp hlab
    refine ⟨?_, inv2, inv3, inv4⟩
    intro g
    rw [inv1 g]
    constructor
    · rintro ⟨q, hq, hqg⟩
      exact ⟨q, List.mem_append_left _ hq, hqg⟩
    · rintro ⟨q, hq, hqg⟩
      rcases List.mem_append.mp hq with hq' | hq'
      · exact ⟨q, hq', hqg⟩
      · rcases List.mem_cons.mp hq' with rfl | hq''
        · exact ⟨q0, hq0, hq0f.trans hqg⟩
        · cases hq''
  · have hnone : p.1 f = none := Option.not_isSome_iff_eq_none.mp hlab
    have hcc := connected_component_exact M ecm f hw hf
    have hclass : ∀ g, Reach M ecm f g → p.1 g = none := by
      intro g hr
      by_contra hne
      obtain ⟨q, hq, hqg⟩ := (inv1 g).mp (Option.ne_none_iff_isSome.mp hne)
      have hqf : Reach M ecm q f := hqg.trans (Reach_symm M ecm hw hsym hr)
      have := (inv1 f).mpr ⟨q, hq, hqf⟩
      rw [hnone] at this
      cases this
    rw [ccStep, if_neg hlab]
    refine ⟨?_, ?_, ?_, ?_⟩
    · intro g
      dsimp only
      by_cases hg : g ∈ connected_component M ecm f
      · rw [if_pos hg]
        simp only [Option.isSome_some, true_iff]
        exact ⟨f, List.mem_append_right _ (List.mem_cons_self f []),
          (hcc.2 g).mp hg⟩
      · rw [if_neg hg, inv1 g]
        constructor
        · rintro ⟨q, hq, hqg⟩
          exact ⟨q, List.mem_append_left _ hq, hqg⟩
        · rintro ⟨q, hq, hqg⟩
          rcases List.mem_append.mp hq with hq' | hq'
          · exact ⟨q, hq', hqg⟩
          · rcases List.mem_cons.mp hq' with rfl | hq''
            · exact absurd ((hcc.2 g).mpr hqg) hg
            · cases hq''
    · intro g i hgi
      dsimp only at hgi
      by_cases hg : g ∈ connected_component M ecm f
      · rw [if_pos hg] at hgi
        obtain rfl := Option.some.inj hgi
        omega
      · rw [if_neg hg] at hgi
        exact Nat.lt_succ_of_lt (inv2 g i hgi)
    · intro i hi
      rcases Nat.lt_succ_iff_lt_or_eq.mp hi with hi' | rfl
      · obtain ⟨g, hg⟩ := inv3 i hi'
        refine ⟨g, ?_⟩
        dsimp only
        rw [if_neg ?_]
        · exact hg
        · intro hmem
          rw [hclass g ((hcc.2 g).mp hmem)] at hg
          cases hg
      · refine ⟨f, ?_⟩
        dsimp only
        rw [if_pos hcc.1]
    · intro g g' i i' hgi hgi'
      dsimp only at hgi hgi'
      by_cases hg : g ∈ connected_component M ecm f <;>
        by_cases hg' : g' ∈ connected_component M ecm f
      · rw [if_pos hg] at hgi
        rw [if_pos hg'] at hgi'
        obtain rfl := Option.some.inj hgi
        obtain rfl := Option.some.inj hgi'
        simp only [true_iff]
        exact (Reach_symm M ecm hw hsym ((hcc.2 g).mp hg)).trans
          ((hcc.2 g').mp hg')
      · rw [if_pos hg] at hgi
        rw [if_neg hg'] at hgi'
        obtain rfl := Option.some.inj hgi
        have hlt := inv2 g' i' hgi'
        constructor
        · intro h; omega
        · intro hr
          exact absurd ((hcc.2 g').mpr (((hcc.2 g).mp hg).trans hr)) hg'
      · rw [if_neg hg] at hgi
        rw [if_pos hg'] at hgi'
        obtain rfl := Option.some.inj hgi'
        have hlt := inv2 g i hgi
        constructor
        · intro h; omega
        · intro hr
          exact absurd
            ((hcc.2 g).mpr (((hcc.2 g').mp hg').trans
              (Reach_symm M ecm hw hsym hr))) hg
      · rw [if_neg hg] at hgi
        rw [if_neg hg'] at hgi'
        exact inv4 g g' i i' hgi hgi'

/-- Folding the labeling step over a suffix of the face list preserves
the labeling invariant. -/
theorem ccFold_inv (M : Mesh) (ecm : Nat → Bool) (hw : Wf M)
    (hsym : ∀ h ∈ M.hedgesL, ecm (M.opp h) = ecm h) :
    ∀ (suf pr : List Nat) (p : (Nat → Option Nat) × Nat),
      M.facesL = pr ++ suf →
      LabelInv M ecm pr p →
      LabelInv M ecm (pr ++ suf) (suf.foldl (ccStep M ecm) p) := by
  intro suf
  induction suf with
  | nil => intro pr p hsplit hinv; simpa using hinv
  | cons f suf ih =>
      intro pr p hsplit hinv
      rw [List.foldl_cons]
      have hf : f ∈ M.facesL := by
        rw [hsplit]
        exact List.mem_append_right _ (List.mem_cons_self f suf)
      have hstep := ccStep_inv M ecm hw hsym pr p f hf hinv
      have hres := ih (pr ++ [f]) (ccStep M ecm p f) (by rw [hsplit]; simp) hstep
      have : (pr ++ [f]) ++ suf = pr ++ f :: suf := by simp
      rwa [this] at hres

/-- The labeling invariant holds for the full run. -/
theorem connected_componentsM_inv (M : Mesh) (ecm : Nat → Bool) (hw : Wf M)
    (hsym : ∀ h ∈ M.hedgesL, ecm (M.opp h) = ecm h) :
    LabelInv M ecm M.facesL (connected_componentsM M ecm) := by
  have h0 : LabelInv M ecm [] (fun _ => none, 0) := by
    refine ⟨?_, ?_, ?_, ?_⟩
    · intro g; simp
    · intro g i h; cases h
    · intro i hi; omega
    · intro g g' i i' h _; cases h
  have := ccFold_inv M ecm hw hsym M.facesL [] (fun _ => none, 0) rfl h0
  simpa [connected_componentsM] using this

/-- C7.  `connected_components(pmesh, fcm, np)` assigns to each face
exactly one id, the ids form the contiguous range `[0, count)` where
`count` is the return value, and two faces get the same id iff they are
connected through non-border, non-constrained edges. -/
theorem connected_components_spec (M : Mesh) (ecm : Nat → Bool) (hw : Wf M)
    (hsym : ∀ h ∈ M.hedgesL, ecm (M.opp h) = ecm h) :
    (∀ f ∈ M.facesL, ∃ i, (connected_componentsM M ecm).1 f = some i ∧
        i < (connected_componentsM M ecm).2) ∧
    (∀ i < (connected_componentsM M ecm).2,
        ∃ f ∈ M.facesL, (connected_componentsM M ecm).1 f = some i) ∧
    (∀ f ∈ M.facesL, ∀ g ∈ M.facesL,
        ((connected_componentsM M ecm).1 f = (connected_componentsM M ecm).1 g
          ↔ Reach M ecm f g)) := by
  obtain ⟨inv1, inv2, inv3, inv4⟩ := connected_componentsM_inv M ecm hw hsym
  have hlab : ∀ f ∈ M.facesL, ∃ i, (connected_componentsM M ecm).1 f = some i := by
    intro f hf
    have := (inv1 f).mpr ⟨f, hf, Relation.ReflTransGen.refl⟩
    exact Option.isSome_iff_exists.mp this
  refine ⟨?_, ?_, ?_⟩
  · intro f hf
    obtain ⟨i, hi⟩ := hlab f hf
    exact ⟨i, hi, inv2 f i hi⟩
  · intro i hi
    obtain ⟨g, hg⟩ := inv3 i hi
    obtain ⟨q, hq, hqg⟩ := (inv1 g).mp (by rw [hg]; rfl)
    exact ⟨g, Reach_mem_faces M ecm hw hq hqg, hg⟩
  · intro f hf g hg
    obtain ⟨i, hi⟩ := hlab f hf
    obtain ⟨j, hj⟩ := hlab g hg
    rw [hi, hj]
    rw [← inv4 f g i j hi hj]
    constructor
    · exact Option.some.inj
    · intro h; rw [h]

/-- Witness for C7 at the concrete two-component mesh `W3`. -/
theorem connected_components_spec_witness :
    Wf W3 ∧ (∀ h ∈ W3.hedgesL, ecm0 (W3.opp h) = ecm0 h) ∧
    ((∀ f ∈ W3.facesL, ∃ i, (connected_componentsM W3 ecm0).1 f = some i ∧
        i < (connected_componentsM W3 ecm0).2) ∧
     (∀ i < (connected_componentsM W3 ecm0).2,
        ∃ f ∈ W3.facesL, (connected_componentsM W3 ecm0).1 f = some i) ∧
     (∀ f ∈ W3.facesL, ∀ g ∈ W3.facesL,
        ((connected_componentsM W3 ecm0).1 f = (connected_componentsM W3 ecm0).1 g
          ↔ Reach W3 ecm0 f g))) :=
  ⟨W3_wf, fun _ _ => rfl,
   connected_components_spec W3 ecm0 W3_wf (fun _ _ => rfl)⟩

/-! ## C5/C6: ranking by component size -/

theorem perm_insertBySize (p : Nat × Nat) :
    ∀ (l : List (Nat × Nat)), (insertBySize p l).Perm (p :: l) := by
  intro l
  induction l with
  | nil => exact List.Perm.refl _
  | cons q l ih =>
      rw [insertBySize]
      by_cases h : p.2 > q.2
      · rw [if_pos h]
      · rw [if_neg h]
        exact List.Perm.trans (List.Perm.cons q ih) (List.Perm.swap p q l)

theorem mem_insertBySize (p x : Nat × Nat) (l : List (Nat × Nat)) :
    x ∈ insertBySize p l ↔ x = p ∨ x ∈ l := by
  rw [(perm_insertBySize p l).mem_iff, List.mem_cons]

theorem sortBySize_perm : ∀ (l : List (Nat × Nat)), (sortBySize l).Perm l := by
  intro l
  induction l with
  | nil => exact List.Perm.refl _
  | cons p l ih =>
      rw [sortBySize]
      exact List.Perm.trans (perm_insertBySize p (sortBySize l)) (List.Perm.cons p ih)

theorem insertBySize_sorted (p : Nat × Nat) :
    ∀ (l : List (Nat × Nat)), List.Pairwise (fun a b => b.2 ≤ a.2) l →
      List.Pairwise (fun a b => b.2 ≤ a.2) (insertBySize p l) := by
  intro l
  induction l with
  | nil => intro _; exact List.pairwise_singleton _ p
  | cons q l ih =>
      intro hp
      rw [List.pairwise_cons] at hp
      rw [insertBySize]
      by_cases h : p.2 > q.2
      · rw [if_pos h]
        rw [List.pairwise_cons]
        constructor
        · intro x hx
          rcases List.mem_cons.mp hx with rfl | hx'
          · exact Nat.le_of_lt h
          · exact le_trans (hp.1 x hx') (Nat.le_of_lt h)
        · rw [List.pairwise_cons]
          exact hp
      · rw [if_neg h]
        rw [List.pairwise_cons]
        constructor
        · intro x hx
          rcases (mem_insertBySize p x l).mp hx with rfl | hx'
          · omega
          · exact hp.1 x hx'
        · exact ih hp.2

theorem sortBySize_sorted :
    ∀ (l : List (Nat × Nat)), List.Pairwise (fun a b => b.2 ≤ a.2) (sortBySize l) := by
  intro l
  induction l with
  | nil => exact List.Pairwise.nil
  | cons p l ih => exact insertBySize_sorted p (sortBySize l) ih

theorem foldl_incrSize (fcmF : Nat → Nat) (num : Nat) :
    ∀ (fs : List Nat) (base : Nat → Nat),
      fs.foldl (fun l f => incrSize l (fcmF f))
          ((List.range num).map (fun i => (i, base i)))
        = (List.range num).map
            (fun i => (i, base i + (fs.filter (fun f => fcmF f = i)).length)) := by
  intro fs
  induction fs with
  | nil => intro base; simp
  | cons f fs ih =>
      intro base
      rw [List.foldl_cons]
      have hstep : incrSize ((List.range num).map (fun i => (i, base i))) (fcmF f)
          = (List.range num).map
              (fun i => (i, base i + if fcmF f = i then 1 else 0)) := by
        unfold incrSize
        rw [List.map_map]
        refine List.map_congr_left ?_
        intro i _
        simp only [Function.comp_apply]
        by_cases h : i = fcmF f
        · rw [if_pos h, if_pos h.symm]
        · rw [if_neg h, if_neg (fun hh => h hh.symm)]
          simp
      rw [hstep, ih]
      refine List.map_congr_left ?_
      intro i _
      have : ((f :: fs).filter (fun x => fcmF x = i)).length
          = (if fcmF f = i then 1 else 0) + (fs.filter (fun x => fcmF x = i)).length := by
        rw [List.filter_cons]
        by_cases h : fcmF f = i
        · rw [if_pos (by simpa using h), if_pos h, List.length_cons]
          omega
        · rw [if_neg (by simpa using h), if_neg h]
          omega
      rw [this]
      have : base i + (if fcmF f = i then 1 else 0)
          + (fs.filter (fun x => fcmF x = i)).length
          = base i + ((if fcmF f = i then 1 else 0)
            + (fs.filter (fun x => fcmF x = i)).length) := by omega
      rw [this]

/-- The `component_size` vector lists `(i, size of component i)` in id
order. -/
theorem componentSizes_eq (M : Mesh) (fcmF : Nat → Nat) (num : Nat) :
    componentSizes M fcmF num
      = (List.range num).map (fun i => (i, compSize M fcmF i)) := by
  unfold componentSizes compSize
  have := foldl_incrSize fcmF num M.facesL (fun _ => 0)
  simpa using this

theorem componentSizes_mem (M : Mesh) (fcmF : Nat → Nat) (num : Nat)
    {pr : Nat × Nat} (h : pr ∈ componentSizes M fcmF num) :
    pr.1 < num ∧ pr = (pr.1, compSize M fcmF pr.1) := by
  rw [componentSizes_eq] at h
  rw [List.mem_map] at h
  obtain ⟨i, hi, rfl⟩ := h
  exact ⟨List.mem_range.mp hi, rfl⟩

theorem componentSizes_fst (M : Mesh) (fcmF : Nat → Nat) (num : Nat) :
    (componentSizes M fcmF num).map Prod.fst = List.range num := by
  rw [componentSizes_eq, List.map_map]
  have : (Prod.fst ∘ fun i => (i, compSize M fcmF i)) = id := by
    funext i; rfl
  rw [this, List.map_id]

theorem componentSizes_length (M : Mesh) (fcmF : Nat → Nat) (num : Nat) :
    (componentSizes M fcmF num).length = num := by
  rw [componentSizes_eq, List.length_map, List.length_range]

theorem componentSizes_mem_of_lt (M : Mesh) (fcmF : Nat → Nat) (num : Nat)
    {i : Nat} (h : i < num) :
    (i, compSize M fcmF i) ∈ componentSizes M fcmF num := by
  rw [componentSizes_eq, List.mem_map]
  exact ⟨i, List.mem_range.mpr h, rfl⟩

theorem fcmReset_keep_eq_one (ids : List Nat) (fcm : Nat → Nat) (f : Nat) :
    fcmReset ids true fcm f = 1 ↔ fcm f ∈ ids := by
  unfold fcmReset
  by_cases h : fcm f ∈ ids
  · rw [if_pos h]; simpa using h
  · rw [if_neg h]; simpa using h

/-- Every face's component id (with the map's default 0) is an id below
the component count. -/
theorem fcmF_spec (M : Mesh) (ecm : Nat → Bool) (hw : Wf M)
    (hsym : ∀ h ∈ M.hedgesL, ecm (M.opp h) = ecm h) (x : Nat)
    (hx : x ∈ M.facesL) :
    (connected_componentsM M ecm).1 x
        = some (((connected_componentsM M ecm).1 x).getD 0) ∧
    ((connected_componentsM M ecm).1 x).getD 0 < (connected_componentsM M ecm).2 := by
  obtain ⟨inv1, inv2, _, _⟩ := connected_componentsM_inv M ecm hw hsym
  have hs := (inv1 x).mpr ⟨x, hx, Relation.ReflTransGen.refl⟩
  obtain ⟨i, hi⟩ := Option.isSome_iff_exists.mp hs
  rw [hi]
  exact ⟨rfl, inv2 x i hi⟩

/-- The ids of the first `k` entries of the sorted `component_size`
vector: there are `k` of them, all distinct and below `num`, and each
selected id's size dominates every unselected id's size. -/
theorem sortTake_spec (s : Nat → Nat) (num k : Nat) (cs : List (Nat × Nat))
    (hfst : cs.map Prod.fst = List.range num)
    (helem : ∀ pr ∈ cs, pr.2 = s pr.1)
    (hk : k ≤ num) :
    (((sortBySize cs).take k).map Prod.fst).length = k ∧
    (((sortBySize cs).take k).map Prod.fst).Nodup ∧
    (∀ i ∈ ((sortBySize cs).take k).map Prod.fst, i < num) ∧
    (∀ i ∈ ((sortBySize cs).take k).map Prod.fst, ∀ j, j < num →
        j ∉ ((sortBySize cs).take k).map Prod.fst → s j ≤ s i) := by
  have hcs_len : cs.length = num := by
    have h1 : (cs.map Prod.fst).length = cs.length := List.length_map cs Prod.fst
    rw [hfst, List.length_range] at h1
    omega
  have hslen : (sortBySize cs).length = num := by
    rw [(sortBySize_perm cs).length_eq, hcs_len]
  have hnodup_map : ((sortBySize cs).map Prod.fst).Nodup := by
    refine (List.Perm.map Prod.fst (sortBySize_perm cs)).nodup_iff.mpr ?_
    rw [hfst]
    exact List.nodup_range num
  have hmemK : ∀ i ∈ ((sortBySize cs).take k).map Prod.fst,
      ∃ pr, pr ∈ (sortBySize cs).take k ∧ pr ∈ cs ∧ pr.1 = i := by
    intro i hi
    obtain ⟨pr, hpr, rfl⟩ := List.mem_map.mp hi
    exact ⟨pr, hpr, (sortBySize_perm cs).mem_iff.mp (List.mem_of_mem_take hpr), rfl⟩
  refine ⟨?_, ?_, ?_, ?_⟩
  · rw [List.length_map, List.length_take]
    omega
  · rw [List.map_take]
    exact List.Sublist.nodup (List.take_sublist k _) hnodup_map
  · intro i hi
    obtain ⟨pr, _, hprcs, rfl⟩ := hmemK i hi
    have : pr.1 ∈ cs.map Prod.fst := List.mem_map_of_mem Prod.fst hprcs
    rw [hfst] at this
    exact List.mem_range.mp this
  · intro i hi j hj hjK
    obtain ⟨pri, hpri_take, hpri_cs, rfl⟩ := hmemK i hi
    have hjfst : j ∈ cs.map Prod.fst := by rw [hfst]; exact List.mem_range.mpr hj
    obtain ⟨prj, hprj_cs, hprj_fst⟩ := List.mem_map.mp hjfst
    have hprj_sorted : prj ∈ sortBySize cs := (sortBySize_perm cs).mem_iff.mpr hprj_cs
    have hprj_not_take : prj ∉ (sortBySize cs).take k := by
      intro hmem
      exact hjK (hprj_fst ▸ List.mem_map_of_mem Prod.fst hmem)
    have hprj_drop : prj ∈ (sortBySize cs).drop k := by
      have := hprj_sorted
      rw [← List.take_append_drop k (sortBySize cs)] at this
      rcases List.mem_append.mp this with h | h
      · exact absurd h hprj_not_take
      · exact h
    have hp := sortBySize_sorted cs
    rw [← List.take_append_drop k (sortBySize cs), List.pairwise_append] at hp
    have hle : prj.2 ≤ pri.2 := hp.2.2 pri hpri_take prj hprj_drop
    rw [helem pri hpri_cs, helem prj hprj_cs, hprj_fst] at hle
    exact hle

/-- C5.  For `0 < k < count`, `keep_largest_connected_components` keeps
exactly `k` components — there is a `k`-element duplicate-free set `K` of
component ids such that the surviving faces are exactly the faces whose
id lies in `K` — every kept component has at least as many faces as every
removed one, and the return value is `count - k`.  (The tie-break among
equal-sized components is whatever the sort produced.) -/
theorem keep_largest_spec (M : Mesh) (ecm : Nat → Bool) (hw : Wf M)
    (hsym : ∀ h ∈ M.hedgesL, ecm (M.opp h) = ecm h) (k : Nat) (hk : 0 < k)
    (hlt : k < (connected_componentsM M ecm).2) :
    ∃ K : List Nat,
      K.length = k ∧ K.Nodup ∧
      (∀ i ∈ K, i < (connected_componentsM M ecm).2) ∧
      (∀ x, x ∈ (keep_largest_connected_components M k ecm).1.facesL ↔
        x ∈ M.facesL ∧ ((connected_componentsM M ecm).1 x).getD 0 ∈ K) ∧
      (∀ i ∈ K, ∀ j, j < (connected_componentsM M ecm).2 → j ∉ K →
        compSize M (fun f => ((connected_componentsM M ecm).1 f).getD 0) j ≤
          compSize M (fun f => ((connected_componentsM M ecm).1 f).getD 0) i) ∧
      (keep_largest_connected_components M k ecm).2
        = (connected_componentsM M ecm).2 - k := by
  have hkl : keep_largest_connected_components M k ecm
      = ((keep_or_remove_connected_components M
            (((sortBySize (componentSizes M
                (fun f => ((connected_componentsM M ecm).1 f).getD 0)
                (connected_componentsM M ecm).2)).take k).map Prod.fst)
            (fun f => ((connected_componentsM M ecm).1 f).getD 0) true).1,
         (connected_componentsM M ecm).2 - k) := by
    unfold keep_largest_connected_components
    dsimp only
    rw [if_neg (by omega), if_neg (by rintro (h1 | h2) <;> omega)]
  obtain ⟨hlen, hnd, hltK, hdom⟩ := sortTake_spec
    (compSize M (fun f => ((connected_componentsM M ecm).1 f).getD 0))
    (connected_componentsM M ecm).2 k
    (componentSizes M (fun f => ((connected_componentsM M ecm).1 f).getD 0)
      (connected_componentsM M ecm).2)
    (componentSizes_fst M _ _)
    (fun pr hpr => by
      have := (componentSizes_mem M _ _ hpr).2
      exact congrArg Prod.snd this)
    (Nat.le_of_lt hlt)
  refine ⟨(((sortBySize (componentSizes M
      (fun f => ((connected_componentsM M ecm).1 f).getD 0)
      (connected_componentsM M ecm).2)).take k).map Prod.fst),
    hlen, hnd, hltK, ?_, hdom, by rw [hkl]⟩
  intro x
  rw [hkl]
  dsimp only
  rw [kor_faces_mem]
  rw [fcmReset_keep_eq_one]

/-- Witness for C5: `W3` (components of sizes 2 and 1), `k = 1`. -/
theorem keep_largest_spec_witness :
    Wf W3 ∧ (∀ h ∈ W3.hedgesL, ecm0 (W3.opp h) = ecm0 h) ∧ 0 < 1 ∧
    1 < (connected_componentsM W3 ecm0).2 ∧
    (∃ K : List Nat,
      K.length = 1 ∧ K.Nodup ∧
      (∀ i ∈ K, i < (connected_componentsM W3 ecm0).2) ∧
      (∀ x, x ∈ (keep_largest_connected_components W3 1 ecm0).1.facesL ↔
        x ∈ W3.facesL ∧ ((connected_componentsM W3 ecm0).1 x).getD 0 ∈ K) ∧
      (∀ i ∈ K, ∀ j, j < (connected_componentsM W3 ecm0).2 → j ∉ K →
        compSize W3 (fun f => ((connected_componentsM W3 ecm0).1 f).getD 0) j ≤
          compSize W3 (fun f => ((connected_componentsM W3 ecm0).1 f).getD 0) i) ∧
      (keep_largest_connected_components W3 1 ecm0).2
        = (connected_componentsM W3 ecm0).2 - 1) :=
  ⟨W3_wf, fun _ _ => rfl, by decide, by decide,
   keep_largest_spec W3 ecm0 W3_wf (fun _ _ => rfl) 1 (by decide) (by decide)⟩

/-- C6.  `keep_large_connected_components(pmesh, threshold, np)` keeps
exactly the faces of components with at least `threshold` faces and
returns `count` minus the number of kept components. -/
theorem keep_large_spec (M : Mesh) (ecm : Nat → Bool) (hw : Wf M)
    (hsym : ∀ h ∈ M.hedgesL, ecm (M.opp h) = ecm h) (t : Nat) :
    (∀ x, x ∈ (keep_large_connected_components M t ecm).1.facesL ↔
        x ∈ M.facesL ∧
          t ≤ compSize M (fun f => ((connected_componentsM M ecm).1 f).getD 0)
                (((connected_componentsM M ecm).1 x).getD 0)) ∧
    (keep_large_connected_components M t ecm).2
      = (connected_componentsM M ecm).2
        - ((List.range (connected_componentsM M ecm).2).filter
            (fun i => t ≤ compSize M
              (fun f => ((connected_componentsM M ecm).1 f).getD 0) i)).length := by
  constructor
  · intro x
    unfold keep_large_connected_components
    dsimp only
    rw [kor_faces_mem, fcmReset_keep_eq_one]
    constructor
    · rintro ⟨hx, hmem⟩
      refine ⟨hx, ?_⟩
      obtain ⟨pr, hprf, hpr1⟩ := List.mem_map.mp hmem
      rw [List.mem_filter] at hprf
      obtain ⟨hlt', hpr_eq⟩ := componentSizes_mem M _ _ hprf.1
      have h2 : t ≤ pr.2 := by simpa using hprf.2
      rw [hpr_eq] at h2
      simp only at h2
      rw [hpr1] at h2
      exact h2
    · rintro ⟨hx, hsize⟩
      refine ⟨hx, ?_⟩
      have hfc := fcmF_spec M ecm hw hsym x hx
      refine List.mem_map.mpr
        ⟨(((connected_componentsM M ecm).1 x).getD 0,
          compSize M (fun f => ((connected_componentsM M ecm).1 f).getD 0)
            (((connected_componentsM M ecm).1 x).getD 0)), ?_, rfl⟩
      rw [List.mem_filter]
      exact ⟨componentSizes_mem_of_lt M _ _ hfc.2, by simpa using hsize⟩
  · unfold keep_large_connected_components
    dsimp only
    rw [List.length_map, componentSizes_eq, List.filter_map, List.length_map]
    rfl

/-- Witness for C6: `W3` with threshold 2. -/
theorem keep_large_spec_witness :
    Wf W3 ∧ (∀ h ∈ W3.hedgesL, ecm0 (W3.opp h) = ecm0 h) ∧
    ((∀ x, x ∈ (keep_large_connected_components W3 2 ecm0).1.facesL ↔
        x ∈ W3.facesL ∧
          2 ≤ compSize W3 (fun f => ((connected_componentsM W3 ecm0).1 f).getD 0)
                (((connected_componentsM W3 ecm0).1 x).getD 0)) ∧
     (keep_large_connected_components W3 2 ecm0).2
      = (connected_componentsM W3 ecm0).2
        - ((List.range (connected_componentsM W3 ecm0).2).filter
            (fun i => 2 ≤ compSize W3
              (fun f => ((connected_componentsM W3 ecm0).1 f).getD 0) i)).length) :=
  ⟨W3_wf, fun _ _ => rfl, keep_large_spec W3 ecm0 W3_wf (fun _ _ => rfl) 2⟩

/-! ## C8: edge reclassification at the cut boundary -/

/-- Processing one edge never touches the incident-face field of a
halfedge of another edge. -/
theorem processEdge_hface_frame (kv : Nat → Bool) (fcmB : Nat → Nat) (M : Mesh)
    (e y : Nat) (h1 : y ≠ e) (h2 : y ≠ M.opp e) :
    (processEdge kv fcmB M e).hface y = M.hface y := by
  unfold processEdge
  dsimp only
  split_ifs <;>
    first
      | rfl
      | (simp only [removeEdgeM_hface, setFaceM_hface, setNextM_hface, setVhM_hface]
         first
           | rfl
           | (exact upd_other _ _ _ h2)
           | (exact upd_other _ _ _ h1))

/-- Processing one edge never removes a halfedge of another edge. -/
theorem processEdge_hedges_frame (kv : Nat → Bool) (fcmB : Nat → Nat) (M : Mesh)
    (e y : Nat) (h1 : y ≠ e) (h2 : y ≠ M.opp e) :
    (y ∈ (processEdge kv fcmB M e).hedgesL ↔ y ∈ M.hedgesL) := by
  unfold processEdge
  dsimp only
  split_ifs <;>
    first
      | rfl
      | (first
          | rw [mem_removeEdgeM_hedgesL]
          | rw [mem_spliceBoth_hedgesL]
          | rw [mem_spliceV_hedgesL]
          | rw [mem_spliceW_hedgesL]
         try simp only [removeEdgeM_opp, setNextM_opp, setVhM_opp, setNextM_hedgesL,
           setVhM_hedgesL]
         constructor
         · exact fun h => h.1
         · exact fun h => ⟨h, h1, h2⟩)

/-- Fold version of the incident-face frame: the incident face of a
halfedge is untouched by processing edges other than its own. -/
theorem edgeFold_hface_frame (kv : Nat → Bool) (fcmB : Nat → Nat) (y : Nat) :
    ∀ (l : List Nat) (M : Mesh),
      (∀ e' ∈ l, y ≠ e' ∧ y ≠ M.opp e') →
      (l.foldl (processEdge kv fcmB) M).hface y = M.hface y := by
  intro l
  induction l with
  | nil => intro M _; rfl
  | cons e' l ih =>
      intro M hcond
      rw [List.foldl_cons]
      have he' := hcond e' (List.mem_cons_self _ _)
      have hrec := ih (processEdge kv fcmB M e') (fun q hq => by
        rw [processEdge_opp]
        exact hcond q (List.mem_cons_of_mem _ hq))
      rw [hrec, processEdge_hface_frame kv fcmB M e' y he'.1 he'.2]

/-- Fold version of the membership frame. -/
theorem edgeFold_hedges_frame (kv : Nat → Bool) (fcmB : Nat → Nat) (y : Nat) :
    ∀ (l : List Nat) (M : Mesh),
      (∀ e' ∈ l, y ≠ e' ∧ y ≠ M.opp e') →
      (y ∈ (l.foldl (processEdge kv fcmB) M).hedgesL ↔ y ∈ M.hedgesL) := by
  intro l
  induction l with
  | nil => intro M _; rfl
  | cons e' l ih =>
      intro M hcond
      rw [List.foldl_cons]
      have he' := hcond e' (List.mem_cons_self _ _)
      have hrec := ih (processEdge kv fcmB M e') (fun q hq => by
        rw [processEdge_opp]
        exact hcond q (List.mem_cons_of_mem _ hq))
      rw [hrec, processEdge_hedges_frame kv fcmB M e' y he'.1 he'.2]

theorem keptSide_isSome {fcmB : Nat → Nat} {o : Option Nat}
    (h : keptSide fcmB o = true) : o.isNone = false := by
  cases o with
  | none => cases h
  | some f => rfl

/-- Processing an edge whose `halfedge(e)` side carries a kept face and
whose opposite side does not: the opposite side is turned into (or left
as) a border, and nothing else happens. -/
theorem processEdge_cut (kv : Nat → Bool) (fcmB : Nat → Nat) (N : Mesh) (e : Nat)
    (hkvv : kv (N.tgt (N.opp e)) = true) (hkvw : kv (N.tgt e) = true)
    (hks : keptSide fcmB (N.hface e) = true)
    (hnk : keptSide fcmB (N.hface (N.opp e)) = false) :
    processEdge kv fcmB N e
      = if (N.hface (N.opp e)).isNone then N else setFaceM N (N.opp e) none := by
  unfold processEdge
  dsimp only
  rw [if_neg (by rw [hkvv, hkvw]; simp), if_pos (by simp [hkvv, hkvw])]
  have hbe : N.isBorder e = false := keptSide_isSome hks
  by_cases hb : (N.hface (N.opp e)).isNone = true
  · have hbo : N.isBorder (N.opp e) = true := hb
    rw [if_neg (by rw [hbe]; simp), if_pos (by rw [hbo, hks]; simp), if_pos hb]
  · have hbo : N.isBorder (N.opp e) = false := by
      unfold Mesh.isBorder
      exact Bool.eq_false_iff.mpr hb
    rw [if_neg (by rw [hbe]; simp),
      if_neg (by rw [hbe, hbo, hnk]; simp),
      if_pos (by rw [hbe, hbo, hks, hnk]; simp),
      if_neg (by simpa using hb)]

/-- Mirror of `processEdge_cut`: the kept face is on the opposite side. -/
theorem processEdge_cut' (kv : Nat → Bool) (fcmB : Nat → Nat) (N : Mesh) (e : Nat)
    (hkvv : kv (N.tgt (N.opp e)) = true) (hkvw : kv (N.tgt e) = true)
    (hks : keptSide fcmB (N.hface (N.opp e)) = true)
    (hnk : keptSide fcmB (N.hface e) = false) :
    processEdge kv fcmB N e
      = if (N.hface e).isNone then N else setFaceM N e none := by
  unfold processEdge
  dsimp only
  rw [if_neg (by rw [hkvv, hkvw]; simp), if_pos (by simp [hkvv, hkvw])]
  have hbo : N.isBorder (N.opp e) = false := keptSide_isSome hks
  by_cases hb : (N.hface e).isNone = true
  · have hbe : N.isBorder e = true := hb
    rw [if_neg (by rw [hbo]; simp), if_pos (by rw [hbe, hbo, hks, hnk]; simp),
      if_pos hb]
  · have hbe : N.isBorder e = false := by
      unfold Mesh.isBorder
      exact Bool.eq_false_iff.mpr hb
    rw [if_neg (by rw [hbo]; simp),
      if_neg (by rw [hbe, hbo, hks, hnk]; simp),
      if_neg (by rw [hbe, hbo, hks, hnk]; simp),
      if_pos (by rw [hbe, hbo, hks, hnk]; simp),
      if_neg (by simpa using hb)]

/-- C8.  During edge reclassification, an edge with both endpoint
vertices kept, a kept face on one side and a border or non-kept face on
the other, is not removed, its kept side keeps its face, and after the
loop the non-kept side is a border halfedge. -/
theorem kor_cut_boundary (M : Mesh) (ids : List Nat) (fcm : Nat → Nat)
    (keep : Bool) (hw : Wf M) (x : Nat) (hx : x ∈ M.hedgesL)
    (hkv1 : keepVertexF M (fcmReset ids keep fcm) (M.tgt x) = true)
    (hkv2 : keepVertexF M (fcmReset ids keep fcm) (M.tgt (M.opp x)) = true)
    (hkept : keptSide (fcmReset ids keep fcm) (M.hface x) = true)
    (hnkept : keptSide (fcmReset ids keep fcm) (M.hface (M.opp x)) = false) :
    x ∈ (keep_or_remove_connected_components M ids fcm keep).1.hedgesL ∧
    M.opp x ∈ (keep_or_remove_connected_components M ids fcm keep).1.hedgesL ∧
    (keep_or_remove_connected_components M ids fcm keep).1.hface (M.opp x) = none ∧
    (keep_or_remove_connected_components M ids fcm keep).1.hface x = M.hface x := by
  have hox : M.opp x ∈ M.hedgesL := hw.opp_mem x hx
  have hinvx : M.opp (M.opp x) = x := hw.opp_invol x hx
  have hnex : M.opp x ≠ x := hw.opp_ne x hx
  -- the representative of x's edge in the snapshot
  obtain ⟨e, he_mem, he_or⟩ : ∃ e, e ∈ M.edgesL ∧ (e = x ∨ e = M.opp x) := by
    rcases hw.edges_cover x hx with h | h
    · exact ⟨x, h, Or.inl rfl⟩
    · exact ⟨M.opp x, h, Or.inr rfl⟩
  -- halfedges of x's edge are not halfedges of any other snapshot edge
  have hdist : ∀ e' ∈ M.edgesL, e' ≠ e →
      (x ≠ e' ∧ x ≠ M.opp e') ∧ (M.opp x ≠ e' ∧ M.opp x ≠ M.opp e') := by
    intro e' he' hne
    have he'h : e' ∈ M.hedgesL := hw.edges_sub e' he'
    have hxe : x ≠ e' := by
      intro hxx
      rcases he_or with h | h
      · exact hne (h.trans hxx).symm
      · refine hw.edges_once e' he' ?_
        rw [← hxx]
        exact h ▸ he_mem
    have hxoe : x ≠ M.opp e' := by
      intro hxx
      have hoe : M.opp x = e' := by rw [hxx, hw.opp_invol e' he'h]
      rcases he_or with h | h
      · refine hw.edges_once e he_mem ?_
        rw [h, hoe]
        exact he'
      · exact hne (h.trans hoe).symm
    refine ⟨⟨hxe, hxoe⟩, ?_, ?_⟩
    · intro hxx
      rcases he_or with h | h
      · refine hw.edges_once e he_mem ?_
        rw [h, hxx]
        exact he'
      · exact hne (h.trans hxx).symm
    · intro hxx
      have : x = e' := by
        have := congrArg M.opp hxx
        rwa [hinvx, hw.opp_invol e' he'h] at this
      exact hxe this
  obtain ⟨l1, l2, hsplit⟩ := List.append_of_mem he_mem
  have hnd := hw.edgesND
  rw [hsplit] at hnd
  rw [List.nodup_append] at hnd
  have hel1 : e ∉ l1 := fun hmem => hnd.2.2 hmem (List.mem_cons_self e l2)
  have hel2 : e ∉ l2 := (List.nodup_cons.mp hnd.2.1).1
  have hl1sub : ∀ e' ∈ l1, e' ∈ M.edgesL ∧ e' ≠ e := by
    intro e' h
    exact ⟨by rw [hsplit]; exact List.mem_append_left _ h,
      fun hh => hel1 (hh ▸ h)⟩
  have hl2sub : ∀ e' ∈ l2, e' ∈ M.edgesL ∧ e' ≠ e := by
    intro e' h
    exact ⟨by rw [hsplit]; exact List.mem_append_right _ (List.mem_cons_of_mem _ h),
      fun hh => hel2 (hh ▸ h)⟩
  -- reduce the goal to the edge loop
  unfold keep_or_remove_connected_components
  dsimp only
  rw [(vertFold_frame _ _ _).2.1, (faceFold_frame _ _ _).2.1,
    (vertFold_frame _ _ _).2.2.2.2.2, (faceFold_frame _ _ _).2.2.2.2.2]
  rw [hsplit, List.foldl_append, List.foldl_cons]
  have hoppMid := edgeFold_opp (keepVertexF M (fcmReset ids keep fcm))
    (fcmReset ids keep fcm) l1 M
  have htgtMid := edgeFold_tgt (keepVertexF M (fcmReset ids keep fcm))
    (fcmReset ids keep fcm) l1 M
  have hfx : (l1.foldl (processEdge (keepVertexF M (fcmReset ids keep fcm))
      (fcmReset ids keep fcm)) M).hface x = M.hface x :=
    edgeFold_hface_frame _ _ x l1 M (fun e' h =>
      ((hdist e' (hl1sub e' h).1 (hl1sub e' h).2).1))
  have hfox : (l1.foldl (processEdge (keepVertexF M (fcmReset ids keep fcm))
      (fcmReset ids keep fcm)) M).hface (M.opp x) = M.hface (M.opp x) :=
    edgeFold_hface_frame _ _ (M.opp x) l1 M (fun e' h =>
      ((hdist e' (hl1sub e' h).1 (hl1sub e' h).2).2))
  have hmx : x ∈ (l1.foldl (processEdge (keepVertexF M (fcmReset ids keep fcm))
      (fcmReset ids keep fcm)) M).hedgesL :=
    (edgeFold_hedges_frame _ _ x l1 M (fun e' h =>
      ((hdist e' (hl1sub e' h).1 (hl1sub e' h).2).1))).mpr hx
  have hmox : M.opp x ∈ (l1.foldl (processEdge (keepVertexF M
      (fcmReset ids keep fcm)) (fcmReset ids keep fcm)) M).hedgesL :=
    (edgeFold_hedges_frame _ _ (M.opp x) l1 M (fun e' h =>
      ((hdist e' (hl1sub e' h).1 (hl1sub e' h).2).2))).mpr hox
  -- evaluate the loop body on x's edge
  have hstep : processEdge (keepVertexF M (fcmReset ids keep fcm))
      (fcmReset ids keep fcm)
      (l1.foldl (processEdge (keepVertexF M (fcmReset ids keep fcm))
        (fcmReset ids keep fcm)) M) e
      = if (M.hface (M.opp x)).isNone
          then (l1.foldl (processEdge (keepVertexF M (fcmReset ids keep fcm))
            (fcmReset ids keep fcm)) M)
          else setFaceM (l1.foldl (processEdge (keepVertexF M
            (fcmReset ids keep fcm)) (fcmReset ids keep fcm)) M) (M.opp x) none := by
    rcases he_or with rfl | rfl
    · rw [processEdge_cut _ _ _ e (by rw [hoppMid, htgtMid]; exact hkv2)
        (by rw [htgtMid]; exact hkv1) (by rw [hfx]; exact hkept)
        (by rw [hoppMid, hfox]; exact hnkept)]
      rw [hoppMid, hfox]
    · rw [processEdge_cut' _ _ _ (M.opp x)
        (by rw [hoppMid, htgtMid, hinvx]; exact hkv1)
        (by rw [htgtMid]; exact hkv2)
        (by rw [hoppMid, hinvx, hfx]; exact hkept)
        (by rw [hfox]; exact hnkept)]
      rw [hfox]
  rw [hstep]
  -- frame over the remaining edges
  by_cases hb : (M.hface (M.opp x)).isNone = true
  · rw [if_pos hb]
    have hcond1 : ∀ e' ∈ l2,
        x ≠ e' ∧ x ≠ (l1.foldl (processEdge (keepVertexF M
          (fcmReset ids keep fcm)) (fcmReset ids keep fcm)) M).opp e' := by
      intro e' h
      rw [hoppMid]
      exact (hdist e' (hl2sub e' h).1 (hl2sub e' h).2).1
    have hcond2 : ∀ e' ∈ l2,
        M.opp x ≠ e' ∧ M.opp x ≠ (l1.foldl (processEdge (keepVertexF M
          (fcmReset ids keep fcm)) (fcmReset ids keep fcm)) M).opp e' := by
      intro e' h
      rw [hoppMid]
      exact (hdist e' (hl2sub e' h).1 (hl2sub e' h).2).2
    refine ⟨(edgeFold_hedges_frame _ _ x l2 _ hcond1).mpr hmx,
      (edgeFold_hedges_frame _ _ (M.opp x) l2 _ hcond2).mpr hmox, ?_, ?_⟩
    · rw [edgeFold_hface_frame _ _ (M.opp x) l2 _ hcond2, hfox]
      exact Option.isNone_iff_eq_none.mp hb
    · rw [edgeFold_hface_frame _ _ x l2 _ hcond1, hfx]
  · rw [if_neg hb]
    have hcond1 : ∀ e' ∈ l2,
        x ≠ e' ∧ x ≠ (setFaceM (l1.foldl (processEdge (keepVertexF M
          (fcmReset ids keep fcm)) (fcmReset ids keep fcm)) M)
            (M.opp x) none).opp e' := by
      intro e' h
      rw [setFaceM_opp, hoppMid]
      exact (hdist e' (hl2sub e' h).1 (hl2sub e' h).2).1
    have hcond2 : ∀ e' ∈ l2,
        M.opp x ≠ e' ∧ M.opp x ≠ (setFaceM (l1.foldl (processEdge (keepVertexF M
          (fcmReset ids keep fcm)) (fcmReset ids keep fcm)) M)
            (M.opp x) none).opp e' := by
      intro e' h
      rw [setFaceM_opp, hoppMid]
      exact (hdist e' (hl2sub e' h).1 (hl2sub e' h).2).2
    refine ⟨(edgeFold_hedges_frame _ _ x l2 _ hcond1).mpr (by
        rw [setFaceM_hedgesL]; exact hmx),
      (edgeFold_hedges_frame _ _ (M.opp x) l2 _ hcond2).mpr (by
        rw [setFaceM_hedgesL]; exact hmox), ?_, ?_⟩
    · rw [edgeFold_hface_frame _ _ (M.opp x) l2 _ hcond2, setFaceM_hface, upd_same]
    · rw [edgeFold_hface_frame _ _ x l2 _ hcond1, setFaceM_hface,
        upd_other _ _ _ (fun hh => hnex hh.symm), hfx]

/-- Witness for C8: keep only face 0 of `W3` (face map = identity);
halfedge 12 has the kept face 0, its opposite 13 the removed face 1. -/
theorem kor_cut_boundary_witness :
    Wf W3 ∧ 12 ∈ W3.hedgesL ∧
    keepVertexF W3 (fcmReset [0] true (fun f => f)) (W3.tgt 12) = true ∧
    keepVertexF W3 (fcmReset [0] true (fun f => f)) (W3.tgt (W3.opp 12)) = true ∧
    keptSide (fcmReset [0] true (fun f => f)) (W3.hface 12) = true ∧
    keptSide (fcmReset [0] true (fun f => f)) (W3.hface (W3.opp 12)) = false ∧
    (12 ∈ (keep_or_remove_connected_components W3 [0] (fun f => f) true).1.hedgesL ∧
     W3.opp 12 ∈ (keep_or_remove_connected_components W3 [0] (fun f => f) true).1.hedgesL ∧
     (keep_or_remove_connected_components W3 [0] (fun f => f) true).1.hface (W3.opp 12) = none ∧
     (keep_or_remove_connected_components W3 [0] (fun f => f) true).1.hface 12 = W3.hface 12) :=
  ⟨W3_wf, by decide, by decide, by decide, by decide, by decide,
   kor_cut_boundary W3 [0] (fun f => f) true W3_wf 12 (by decide) (by decide)
     (by decide) (by decide) (by decide)⟩

/-! ## C2: no dangling references after excision.
The edge-reclassification loop maintains `EInv`; the invariant is
established from well-formedness, preserved by every branch of the loop
body, and finally yields the no-dangling property. -/

/-- The loop classification is invariant under `opposite`. -/
theorem keptHalfB_opp (M0 : Mesh) (fcmB : Nat → Nat) (kv : Nat → Bool)
    (hw : Wf M0) {h : Nat} (hm : h ∈ M0.hedgesL) :
    keptHalfB M0 fcmB kv (M0.opp h) = keptHalfB M0 fcmB kv h := by
  unfold keptHalfB
  rw [hw.opp_invol h hm]
  cases hkv1 : kv (M0.tgt (M0.opp h)) <;> cases hkv2 : kv (M0.tgt h) <;>
    cases hks1 : keptSide fcmB (M0.hface h) <;>
    cases hks2 : keptSide fcmB (M0.hface (M0.opp h)) <;>
    cases hb1 : M0.isBorder h <;> cases hb2 : M0.isBorder (M0.opp h) <;> rfl

/-- Distinct snapshot edges share no halfedge. -/
theorem edges_disjoint (M0 : Mesh) (hw : Wf M0) {a b : Nat}
    (ha : a ∈ M0.edgesL) (hb : b ∈ M0.edgesL) (hne : a ≠ b) :
    a ≠ M0.opp b ∧ M0.opp a ≠ b ∧ M0.opp a ≠ M0.opp b := by
  refine ⟨?_, ?_, ?_⟩
  · intro h
    rw [h] at ha
    exact hw.edges_once b hb ha
  · intro h
    rw [← h] at hb
    exact hw.edges_once a ha hb
  · intro h
    have := congrArg M0.opp h
    rw [hw.opp_invol a (hw.edges_sub a ha), hw.opp_invol b (hw.edges_sub b hb)] at this
    exact hne this

/-- The invariant holds before the loop starts. -/
theorem EInv_init (M0 : Mesh) (fcmB : Nat → Nat) (kv : Nat → Bool) (hw : Wf M0) :
    EInv M0 fcmB kv M0 where
  opp_eq := rfl
  tgt_eq := rfl
  faces_eq := rfl
  verts_eq := rfl
  fh_eq := rfl
  sub := fun _ h => h
  pair := fun h hm => hw.opp_mem h hm
  survKept := fun _ hm _ => hm
  hface_kept := fun _ _ => rfl
  hface_opts := fun _ => Or.inl rfl
  J0 := by
    intro a ha b hb hab
    have := congrArg M0.prv hab
    rwa [hw.prv_nxt a ha, hw.prv_nxt b hb] at this
  J1 := fun a ha _ => ⟨hw.nxt_mem a ha, hw.src_nxt a ha, hw.prv_nxt a ha⟩
  J2 := by
    intro b hb _
    refine ⟨hw.prv_mem b hb, hw.nxt_prv b hb, ?_⟩
    have := hw.src_nxt (M0.prv b) (hw.prv_mem b hb)
    rw [hw.nxt_prv b hb] at this
    exact this.symm

/-- `set_halfedge` does not disturb the invariant (it touches only the
vertex-to-halfedge map, which the invariant does not mention). -/
theorem EInv_setVh (M0 : Mesh) (fcmB : Nat → Nat) (kv : Nat → Bool) {N : Mesh}
    (hinv : EInv M0 fcmB kv N) (v h : Nat) :
    EInv M0 fcmB kv (setVhM N v h) where
  opp_eq := hinv.opp_eq
  tgt_eq := hinv.tgt_eq
  faces_eq := hinv.faces_eq
  verts_eq := hinv.verts_eq
  fh_eq := hinv.fh_eq
  sub := hinv.sub
  pair := hinv.pair
  survKept := hinv.survKept
  hface_kept := hinv.hface_kept
  hface_opts := hinv.hface_opts
  J0 := hinv.J0
  J1 := hinv.J1
  J2 := hinv.J2

/-- Setting a non-kept side's face to the border sentinel preserves the
invariant. -/
theorem EInv_setFace_none (M0 : Mesh) (fcmB : Nat → Nat) (kv : Nat → Bool)
    {N : Mesh} (hinv : EInv M0 fcmB kv N) (y : Nat)
    (hy : keptSide fcmB (M0.hface y) = false) :
    EInv M0 fcmB kv (setFaceM N y none) where
  opp_eq := hinv.opp_eq
  tgt_eq := hinv.tgt_eq
  faces_eq := hinv.faces_eq
  verts_eq := hinv.verts_eq
  fh_eq := hinv.fh_eq
  sub := hinv.sub
  pair := hinv.pair
  survKept := hinv.survKept
  hface_kept := by
    intro h' hk
    rw [setFaceM_hface]
    rcases eq_or_ne h' y with rfl | hne
    · rw [hk] at hy; cases hy
    · rw [upd_other _ _ _ hne]
      exact hinv.hface_kept h' hk
  hface_opts := by
    intro h'
    rw [setFaceM_hface]
    rcases eq_or_ne h' y with rfl | hne
    · rw [upd_same]; exact Or.inr rfl
    · rw [upd_other _ _ _ hne]; exact hinv.hface_opts h'
  J0 := hinv.J0
  J1 := hinv.J1
  J2 := hinv.J2

/-- Removing an edge with both endpoints unkept preserves the invariant. -/
theorem EInv_remove_unkept (M0 : Mesh) (fcmB : Nat → Nat) (kv : Nat → Bool)
    (hw : Wf M0) {N : Mesh} (hinv : EInv M0 fcmB kv N) (e : Nat)
    (he : e ∈ N.hedgesL)
    (hkvv : kv (M0.tgt (M0.opp e)) = false) (hkvw : kv (M0.tgt e) = false) :
    EInv M0 fcmB kv (removeEdgeM N e) := by
  have he0 : e ∈ M0.hedgesL := hinv.sub e he
  have hmem : ∀ x, x ∈ (removeEdgeM N e).hedgesL ↔
      x ∈ N.hedgesL ∧ x ≠ e ∧ x ≠ M0.opp e := by
    intro x
    rw [mem_removeEdgeM_hedgesL, hinv.opp_eq]
  have hkE : keptHalfB M0 fcmB kv e = false := by
    unfold keptHalfB
    rw [hkvv]
    rfl
  refine
    { opp_eq := by rw [removeEdgeM_opp, hinv.opp_eq]
      tgt_eq := by rw [removeEdgeM_tgt, hinv.tgt_eq]
      faces_eq := by rw [removeEdgeM_facesL, hinv.faces_eq]
      verts_eq := by rw [removeEdgeM_vertsL, hinv.verts_eq]
      fh_eq := by rw [removeEdgeM_fh, hinv.fh_eq]
      sub := fun x hx => hinv.sub x ((hmem x).mp hx).1
      pair := ?_
      survKept := ?_
      hface_kept := fun h' hk => by
        rw [removeEdgeM_hface]; exact hinv.hface_kept h' hk
      hface_opts := fun h' => by
        rw [removeEdgeM_hface]; exact hinv.hface_opts h'
      J0 := ?_
      J1 := ?_
      J2 := ?_ }
  · -- pair
    intro x hx
    obtain ⟨hxN, hxe, hxoe⟩ := (hmem x).mp hx
    have hx0 : x ∈ M0.hedgesL := hinv.sub x hxN
    refine (hmem (M0.opp x)).mpr ⟨hinv.pair x hxN, ?_, ?_⟩
    · intro h
      exact hxoe (by rw [← h, hw.opp_invol x hx0])
    · intro h
      have := congrArg M0.opp h
      rw [hw.opp_invol x hx0, hw.opp_invol e he0] at this
      exact hxe this
  · -- survKept
    intro y hy hky
    refine (hmem y).mpr ⟨hinv.survKept y hy hky, ?_, ?_⟩
    · rintro rfl
      rw [hky] at hkE
      cases hkE
    · rintro rfl
      rw [keptHalfB_opp M0 fcmB kv hw he0] at hky
      rw [hky] at hkE
      cases hkE
  · -- J0
    intro a ha b hb hab
    rw [removeEdgeM_nxt] at hab
    exact hinv.J0 a ((hmem a).mp ha).1 b ((hmem b).mp hb).1 hab
  · -- J1
    intro a ha hkva
    obtain ⟨haN, hae, haoe⟩ := (hmem a).mp ha
    obtain ⟨hn1, hn2, hn3⟩ := hinv.J1 a haN hkva
    rw [removeEdgeM_nxt, removeEdgeM_prv]
    refine ⟨(hmem (N.nxt a)).mpr ⟨hn1, ?_, ?_⟩, hn2, hn3⟩
    · rintro rfl
      rw [hn2] at hkvv
      rw [hkvv] at hkva
      cases hkva
    · intro hX
      rw [hX, hw.opp_invol e he0] at hn2
      rw [hn2] at hkvw
      rw [hkva] at hkvw
      cases hkvw
  · -- J2
    intro b hb hkvb
    obtain ⟨hbN, hbe, hboe⟩ := (hmem b).mp hb
    obtain ⟨hp1, hp2, hp3⟩ := hinv.J2 b hbN hkvb
    rw [removeEdgeM_nxt, removeEdgeM_prv]
    refine ⟨(hmem (N.prv b)).mpr ⟨hp1, ?_, ?_⟩, hp2, hp3⟩
    · rintro rfl
      rw [hp3] at hkvw
      rw [hkvw] at hkvb
      cases hkvb
    · intro hX
      rw [hX] at hp3
      rw [hp3] at hkvv
      rw [hkvb] at hkvv
      cases hkvv

/-- The splice around the kept source vertex preserves the invariant. -/
theorem EInv_spliceV (M0 : Mesh) (fcmB : Nat → Nat) (kv : Nat → Bool)
    (hw : Wf M0) {N : Mesh} (hinv : EInv M0 fcmB kv N) (e : Nat)
    (he : e ∈ N.hedgesL)
    (hkvv : kv (M0.tgt (M0.opp e)) = true) (hkvw : kv (M0.tgt e) = false) :
    EInv M0 fcmB kv (spliceV N e) := by
  have hOP := hinv.opp_eq
  have he0 : e ∈ M0.hedgesL := hinv.sub e he
  have hoo : M0.opp (M0.opp e) = e := hw.opp_invol e he0
  have hvw : M0.tgt e ≠ M0.tgt (M0.opp e) := hw.noLoop e he0
  have hoeN : M0.opp e ∈ N.hedgesL := hinv.pair e he
  obtain ⟨hp1, hp2, hp3⟩ := hinv.J2 e he hkvv
  obtain ⟨hq1, hq2, hq3⟩ := hinv.J1 (M0.opp e) hoeN hkvv
  have hpe : N.prv e ≠ e := by
    intro h
    rw [h] at hp3
    exact hvw hp3
  have hqoe : N.nxt (M0.opp e) ≠ M0.opp e := by
    intro h
    rw [h, hoo] at hq2
    exact hvw hq2
  have hq_iff : N.nxt (M0.opp e) = e ↔ N.prv e = M0.opp e := by
    constructor
    · intro h
      conv_lhs => rw [← h]
      exact hq3
    · intro h
      rw [h] at hp2
      exact hp2
  have hmem : ∀ x, x ∈ (spliceV N e).hedgesL ↔
      x ∈ N.hedgesL ∧ x ≠ e ∧ x ≠ M0.opp e := by
    intro x
    rw [mem_spliceV_hedgesL, hOP]
  have hkE : keptHalfB M0 fcmB kv e = false := by
    unfold keptHalfB
    rw [hkvw]
    simp
  have hnxt : (spliceV N e).nxt = upd N.nxt (N.prv e) (N.nxt (M0.opp e)) := by
    rw [spliceV_nxt, hOP]
  have hprv : (spliceV N e).prv = upd N.prv (N.nxt (M0.opp e)) (N.prv e) := by
    rw [spliceV_prv, hOP]
  refine
    { opp_eq := by rw [spliceV_opp, hOP]
      tgt_eq := by rw [spliceV_tgt, hinv.tgt_eq]
      faces_eq := by rw [spliceV_facesL, hinv.faces_eq]
      verts_eq := by rw [spliceV_vertsL, hinv.verts_eq]
      fh_eq := by rw [spliceV_fh, hinv.fh_eq]
      sub := fun x hx => hinv.sub x ((hmem x).mp hx).1
      pair := ?_
      survKept := ?_
      hface_kept := fun h' hk => by
        rw [spliceV_hface]
        exact hinv.hface_kept h' hk
      hface_opts := fun h' => by
        rw [spliceV_hface]
        exact hinv.hface_opts h'
      J0 := ?_
      J1 := ?_
      J2 := ?_ }
  · -- pair
    intro x hx
    obtain ⟨hxN, hxe, hxoe⟩ := (hmem x).mp hx
    have hx0 : x ∈ M0.hedgesL := hinv.sub x hxN
    refine (hmem (M0.opp x)).mpr ⟨hinv.pair x hxN, ?_, ?_⟩
    · intro h
      exact hxoe (by rw [← h, hw.opp_invol x hx0])
    · intro h
      have := congrArg M0.opp h
      rw [hw.opp_invol x hx0, hoo] at this
      exact hxe this
  · -- survKept
    intro y hy hky
    refine (hmem y).mpr ⟨hinv.survKept y hy hky, ?_, ?_⟩
    · rintro rfl
      rw [hky] at hkE
      cases hkE
    · rintro rfl
      rw [keptHalfB_opp M0 fcmB kv hw he0] at hky
      rw [hky] at hkE
      cases hkE
  · -- J0
    intro a ha b hb hab
    obtain ⟨haN, hae, haoe⟩ := (hmem a).mp ha
    obtain ⟨hbN, hbe, hboe⟩ := (hmem b).mp hb
    rw [hnxt] at hab
    by_cases hap : a = N.prv e <;> by_cases hbp : b = N.prv e
    · rw [hap, hbp]
    · rw [hap, upd_same, upd_other _ _ _ hbp] at hab
      exact absurd (hinv.J0 b hbN (M0.opp e) hoeN hab.symm) hboe
    · rw [hbp, upd_same, upd_other _ _ _ hap] at hab
      exact absurd (hinv.J0 a haN (M0.opp e) hoeN hab) haoe
    · rw [upd_other _ _ _ hap, upd_other _ _ _ hbp] at hab
      exact hinv.J0 a haN b hbN hab
  · -- J1
    intro a ha hkva
    obtain ⟨haN, hae, haoe⟩ := (hmem a).mp ha
    rw [hnxt, hprv]
    by_cases hap : a = N.prv e
    · subst hap
      rw [upd_same]
      have hqe : N.nxt (M0.opp e) ≠ e := fun h => haoe (hq_iff.mp h)
      refine ⟨(hmem _).mpr ⟨hq1, hqe, hqoe⟩, ?_, ?_⟩
      · rw [hq2, hp3]
      · rw [upd_same]
    · rw [upd_other _ _ _ hap]
      obtain ⟨ha1, ha2, ha3⟩ := hinv.J1 a haN hkva
      have hnae : N.nxt a ≠ e := by
        intro h
        rw [h] at ha3
        exact hap ha3.symm
      have hnaoe : N.nxt a ≠ M0.opp e := by
        intro h
        rw [h, hoo] at ha2
        rw [← ha2] at hkva
        rw [hkva] at hkvw
        cases hkvw
      have hnq : N.nxt a ≠ N.nxt (M0.opp e) := by
        intro h
        exact absurd (hinv.J0 a haN (M0.opp e) hoeN h) haoe
      refine ⟨(hmem _).mpr ⟨ha1, hnae, hnaoe⟩, ha2, ?_⟩
      rw [upd_other _ _ _ hnq]
      exact ha3
  · -- J2
    intro b hb hkvb
    obtain ⟨hbN, hbe, hboe⟩ := (hmem b).mp hb
    rw [hnxt, hprv]
    by_cases hbq : b = N.nxt (M0.opp e)
    · subst hbq
      rw [upd_same]
      have hpoe : N.prv e ≠ M0.opp e := fun h => hbe (hq_iff.mpr h)
      refine ⟨(hmem _).mpr ⟨hp1, hpe, hpoe⟩, ?_, ?_⟩
      · rw [upd_same]
      · rw [hp3, hq2]
    · rw [upd_other _ _ _ hbq]
      obtain ⟨hb1, hb2, hb3⟩ := hinv.J2 b hbN hkvb
      have hpbe : N.prv b ≠ e := by
        intro h
        rw [h] at hb3
        rw [← hb3] at hkvb
        rw [hkvb] at hkvw
        cases hkvw
      have hpboe : N.prv b ≠ M0.opp e := by
        intro h
        rw [h] at hb2
        exact hbq hb2.symm
      have hpbp : N.prv b ≠ N.prv e := by
        intro h
        rw [h, hp2] at hb2
        exact hbe hb2.symm
      refine ⟨(hmem _).mpr ⟨hb1, hpbe, hpboe⟩, ?_, hb3⟩
      rw [upd_other _ _ _ hpbp]
      exact hb2

/-- The splice around the kept target vertex preserves the invariant. -/
theorem EInv_spliceW (M0 : Mesh) (fcmB : Nat → Nat) (kv : Nat → Bool)
    (hw : Wf M0) {N : Mesh} (hinv : EInv M0 fcmB kv N) (e : Nat)
    (he : e ∈ N.hedgesL)
    (hkvv : kv (M0.tgt (M0.opp e)) = false) (hkvw : kv (M0.tgt e) = true) :
    EInv M0 fcmB kv (spliceW N e) := by
  have hOP := hinv.opp_eq
  have he0 : e ∈ M0.hedgesL := hinv.sub e he
  have hoo : M0.opp (M0.opp e) = e := hw.opp_invol e he0
  have hvw : M0.tgt e ≠ M0.tgt (M0.opp e) := hw.noLoop e he0
  have hoeN : M0.opp e ∈ N.hedgesL := hinv.pair e he
  obtain ⟨hs1, hs2, hs3⟩ := hinv.J1 e he hkvw
  obtain ⟨hr1, hr2, hr3⟩ := hinv.J2 (M0.opp e) hoeN (by rw [hoo]; exact hkvw)
  rw [hoo] at hr3
  have hse : N.nxt e ≠ e := by
    intro h
    rw [h] at hs2
    exact hvw hs2.symm
  have hroe : N.prv (M0.opp e) ≠ M0.opp e := by
    intro h
    rw [h] at hr3
    exact hvw hr3.symm
  have hs_iff : N.nxt e = M0.opp e ↔ N.prv (M0.opp e) = e := by
    constructor
    · intro h
      rw [← h]
      exact hs3
    · intro h
      rw [h] at hr2
      exact hr2
  have hmem : ∀ x, x ∈ (spliceW N e).hedgesL ↔
      x ∈ N.hedgesL ∧ x ≠ e ∧ x ≠ M0.opp e := by
    intro x
    rw [mem_spliceW_hedgesL, hOP]
  have hkE : keptHalfB M0 fcmB kv e = false := by
    unfold keptHalfB
    rw [hkvv]
    rfl
  have hnxt : (spliceW N e).nxt = upd N.nxt (N.prv (M0.opp e)) (N.nxt e) := by
    rw [spliceW_nxt, hOP]
  have hprv : (spliceW N e).prv = upd N.prv (N.nxt e) (N.prv (M0.opp e)) := by
    rw [spliceW_prv, hOP]
  refine
    { opp_eq := by rw [spliceW_opp, hOP]
      tgt_eq := by rw [spliceW_tgt, hinv.tgt_eq]
      faces_eq := by rw [spliceW_facesL, hinv.faces_eq]
      verts_eq := by rw [spliceW_vertsL, hinv.verts_eq]
      fh_eq := by rw [spliceW_fh, hinv.fh_eq]
      sub := fun x hx => hinv.sub x ((hmem x).mp hx).1
      pair := ?_
      survKept := ?_
      hface_kept := fun h' hk => by
        rw [spliceW_hface]
        exact hinv.hface_kept h' hk
      hface_opts := fun h' => by
        rw [spliceW_hface]
        exact hinv.hface_opts h'
      J0 := ?_
      J1 := ?_
      J2 := ?_ }
  · -- pair
    intro x hx
    obtain ⟨hxN, hxe, hxoe⟩ := (hmem x).mp hx
    have hx0 : x ∈ M0.hedgesL := hinv.sub x hxN
    refine (hmem (M0.opp x)).mpr ⟨hinv.pair x hxN, ?_, ?_⟩
    · intro h
      exact hxoe (by rw [← h, hw.opp_invol x hx0])
    · intro h
      have := congrArg M0.opp h
      rw [hw.opp_invol x hx0, hoo] at this
      exact hxe this
  · -- survKept
    intro y hy hky
    refine (hmem y).mpr ⟨hinv.survKept y hy hky, ?_, ?_⟩
    · rintro rfl
      rw [hky] at hkE
      cases hkE
    · rintro rfl
      rw [keptHalfB_opp M0 fcmB kv hw he0] at hky
      rw [hky] at hkE
      cases hkE
  · -- J0
    intro a ha b hb hab
    obtain ⟨haN, hae, haoe⟩ := (hmem a).mp ha
    obtain ⟨hbN, hbe, hboe⟩ := (hmem b).mp hb
    rw [hnxt] at hab
    by_cases har : a = N.prv (M0.opp e) <;> by_cases hbr : b = N.prv (M0.opp e)
    · rw [har, hbr]
    · rw [har, upd_same, upd_other _ _ _ hbr] at hab
      exact absurd (hinv.J0 b hbN e he hab.symm) hbe
    · rw [hbr, upd_same, upd_other _ _ _ har] at hab
      exact absurd (hinv.J0 a haN e he hab) hae
    · rw [upd_other _ _ _ har, upd_other _ _ _ hbr] at hab
      exact hinv.J0 a haN b hbN hab
  · -- J1
    intro a ha hkva
    obtain ⟨haN, hae, haoe⟩ := (hmem a).mp ha
    rw [hnxt, hprv]
    by_cases har : a = N.prv (M0.opp e)
    · subst har
      rw [upd_same]
      have hsoe : N.nxt e ≠ M0.opp e := fun h => hae (hs_iff.mp h)
      refine ⟨(hmem _).mpr ⟨hs1, hse, hsoe⟩, ?_, ?_⟩
      · rw [hs2, hr3]
      · rw [upd_same]
    · rw [upd_other _ _ _ har]
      obtain ⟨ha1, ha2, ha3⟩ := hinv.J1 a haN hkva
      have hnaoe : N.nxt a ≠ M0.opp e := by
        intro h
        exact har (hinv.J0 a haN (N.prv (M0.opp e)) hr1 (by rw [h, hr2]))
      have hnae : N.nxt a ≠ e := by
        intro h
        rw [h] at ha2
        rw [← ha2] at hkva
        rw [hkva] at hkvv
        cases hkvv
      have hns : N.nxt a ≠ N.nxt e := by
        intro h
        exact absurd (hinv.J0 a haN e he h) hae
      refine ⟨(hmem _).mpr ⟨ha1, hnae, hnaoe⟩, ha2, ?_⟩
      rw [upd_other _ _ _ hns]
      exact ha3
  · -- J2
    intro b hb hkvb
    obtain ⟨hbN, hbe, hboe⟩ := (hmem b).mp hb
    rw [hnxt, hprv]
    by_cases hbs : b = N.nxt e
    · subst hbs
      rw [upd_same]
      have hre : N.prv (M0.opp e) ≠ e := fun h => hboe (hs_iff.mpr h)
      refine ⟨(hmem _).mpr ⟨hr1, hre, hroe⟩, ?_, ?_⟩
      · rw [upd_same]
      · rw [hr3, hs2]
    · rw [upd_other _ _ _ hbs]
      obtain ⟨hb1, hb2, hb3⟩ := hinv.J2 b hbN hkvb
      have hpboe : N.prv b ≠ M0.opp e := by
        intro h
        rw [h] at hb3
        rw [← hb3] at hkvb
        rw [hkvb] at hkvv
        cases hkvv
      have hpbe : N.prv b ≠ e := by
        intro h
        rw [h] at hb2
        exact hbs hb2.symm
      have hpbr : N.prv b ≠ N.prv (M0.opp e) := by
        intro h
        rw [h, hr2] at hb2
        exact hboe hb2.symm
      refine ⟨(hmem _).mpr ⟨hb1, hpbe, hpboe⟩, ?_, hb3⟩
      rw [upd_other _ _ _ hpbr]
      exact hb2

/-- The double splice for an edge interior to the removed region with
both endpoints kept preserves the invariant. -/
theorem EInv_spliceBoth (M0 : Mesh) (fcmB : Nat → Nat) (kv : Nat → Bool)
    (hw : Wf M0) {N : Mesh} (hinv : EInv M0 fcmB kv N) (e : Nat)
    (he : e ∈ N.hedgesL)
    (hkvv : kv (M0.tgt (M0.opp e)) = true) (hkvw : kv (M0.tgt e) = true)
    (hkse : keptSide fcmB (M0.hface e) = false)
    (hksoe : keptSide fcmB (M0.hface (M0.opp e)) = false)
    (hbb : (M0.isBorder e && M0.isBorder (M0.opp e)) = false) :
    EInv M0 fcmB kv (spliceBoth N e) := by
  have hOP := hinv.opp_eq
  have he0 : e ∈ M0.hedgesL := hinv.sub e he
  have hoo : M0.opp (M0.opp e) = e := hw.opp_invol e he0
  have hone : M0.opp e ≠ e := hw.opp_ne e he0
  have hvw : M0.tgt e ≠ M0.tgt (M0.opp e) := hw.noLoop e he0
  have hoeN : M0.opp e ∈ N.hedgesL := hinv.pair e he
  obtain ⟨hs1, hs2, hs3⟩ := hinv.J1 e he hkvw
  obtain ⟨hq1, hq2, hq3⟩ := hinv.J1 (M0.opp e) hoeN hkvv
  obtain ⟨hp1, hp2, hp3⟩ := hinv.J2 e he hkvv
  obtain ⟨hr1, hr2, hr3⟩ := hinv.J2 (M0.opp e) hoeN (by rw [hoo]; exact hkvw)
  rw [hoo] at hr3
  have hpe : N.prv e ≠ e := by
    intro h
    rw [h] at hp3
    exact hvw hp3
  have hqoe : N.nxt (M0.opp e) ≠ M0.opp e := by
    intro h
    rw [h, hoo] at hq2
    exact hvw hq2
  have hse : N.nxt e ≠ e := by
    intro h
    rw [h] at hs2
    exact hvw hs2.symm
  have hroe : N.prv (M0.opp e) ≠ M0.opp e := by
    intro h
    rw [h] at hr3
    exact hvw hr3.symm
  have hq_iff : N.nxt (M0.opp e) = e ↔ N.prv e = M0.opp e := by
    constructor
    · intro h
      conv_lhs => rw [← h]
      exact hq3
    · intro h
      rw [h] at hp2
      exact hp2
  have hs_iff : N.nxt e = M0.opp e ↔ N.prv (M0.opp e) = e := by
    constructor
    · intro h
      rw [← h]
      exact hs3
    · intro h
      rw [h] at hr2
      exact hr2
  have hqs : N.nxt (M0.opp e) ≠ N.nxt e := by
    intro h
    exact hone (hinv.J0 (M0.opp e) hoeN e he h)
  have hpr : N.prv e ≠ N.prv (M0.opp e) := by
    intro h
    rw [h, hr2] at hp2
    exact hone hp2
  have hr3eq : (setNextM N (N.prv e) (N.nxt (M0.opp e))).prv (M0.opp e)
      = N.prv (M0.opp e) := by
    rw [setNextM_prv]
    exact upd_other _ _ _ (fun h => hqoe h.symm)
  have hs3eq : (setNextM N (N.prv e) (N.nxt (M0.opp e))).nxt e = N.nxt e := by
    rw [setNextM_nxt]
    exact upd_other _ _ _ (fun h => hpe h.symm)
  have hsplit : spliceBoth N e
      = removeEdgeM (setNextM (setNextM N (N.prv e) (N.nxt (M0.opp e)))
          (N.prv (M0.opp e)) (N.nxt e)) e := by
    unfold spliceBoth
    rw [hOP, hr3eq, hs3eq]
  have hnxt : (spliceBoth N e).nxt
      = upd (upd N.nxt (N.prv e) (N.nxt (M0.opp e))) (N.prv (M0.opp e)) (N.nxt e) := by
    rw [hsplit]
    rfl
  have hprv : (spliceBoth N e).prv
      = upd (upd N.prv (N.nxt (M0.opp e)) (N.prv e)) (N.nxt e) (N.prv (M0.opp e)) := by
    rw [hsplit]
    rfl
  have hmem : ∀ x, x ∈ (spliceBoth N e).hedgesL ↔
      x ∈ N.hedgesL ∧ x ≠ e ∧ x ≠ M0.opp e := by
    intro x
    rw [mem_spliceBoth_hedgesL, hOP]
  have hkE : keptHalfB M0 fcmB kv e = false := by
    unfold keptHalfB
    rw [hkvv, hkvw, hkse, hksoe, hbb]
    rfl
  refine
    { opp_eq := by rw [hsplit, removeEdgeM_opp, setNextM_opp, setNextM_opp, hOP]
      tgt_eq := by rw [hsplit, removeEdgeM_tgt, setNextM_tgt, setNextM_tgt, hinv.tgt_eq]
      faces_eq := by
        rw [hsplit, removeEdgeM_facesL, setNextM_facesL, setNextM_facesL, hinv.faces_eq]
      verts_eq := by
        rw [hsplit, removeEdgeM_vertsL, setNextM_vertsL, setNextM_vertsL, hinv.verts_eq]
      fh_eq := by rw [hsplit, removeEdgeM_fh, setNextM_fh, setNextM_fh, hinv.fh_eq]
      sub := fun x hx => hinv.sub x ((hmem x).mp hx).1
      pair := ?_
      survKept := ?_
      hface_kept := fun h' hk => by
        rw [spliceBoth_hface]
        exact hinv.hface_kept h' hk
      hface_opts := fun h' => by
        rw [spliceBoth_hface]
        exact hinv.hface_opts h'
      J0 := ?_
      J1 := ?_
      J2 := ?_ }
  · -- pair
    intro x hx
    obtain ⟨hxN, hxe, hxoe⟩ := (hmem x).mp hx
    have hx0 : x ∈ M0.hedgesL := hinv.sub x hxN
    refine (hmem (M0.opp x)).mpr ⟨hinv.pair x hxN, ?_, ?_⟩
    · intro h
      exact hxoe (by rw [← h, hw.opp_invol x hx0])
    · intro h
      have := congrArg M0.opp h
      rw [hw.opp_invol x hx0, hoo] at this
      exact hxe this
  · -- survKept
    intro y hy hky
    refine (hmem y).mpr ⟨hinv.survKept y hy hky, ?_, ?_⟩
    · rintro rfl
      rw [hky] at hkE
      cases hkE
    · rintro rfl
      rw [keptHalfB_opp M0 fcmB kv hw he0] at hky
      rw [hky] at hkE
      cases hkE
  · -- J0
    intro a ha b hb hab
    obtain ⟨haN, hae, haoe⟩ := (hmem a).mp ha
    obtain ⟨hbN, hbe, hboe⟩ := (hmem b).mp hb
    rw [hnxt] at hab
    by_cases har : a = N.prv (M0.opp e) <;> by_cases hbr : b = N.prv (M0.opp e)
    · rw [har, hbr]
    · rw [har, upd_same] at hab
      by_cases hbp : b = N.prv e
      · rw [hbp, upd_other _ _ _ hpr, upd_same] at hab
        exact absurd hab.symm hqs
      · rw [upd_other _ _ _ hbr, upd_other _ _ _ hbp] at hab
        exact absurd (hinv.J0 b hbN e he hab.symm) hbe
    · rw [hbr, upd_same] at hab
      by_cases hap : a = N.prv e
      · rw [hap, upd_other _ _ _ hpr, upd_same] at hab
        exact absurd hab hqs
      · rw [upd_other _ _ _ har, upd_other _ _ _ hap] at hab
        exact absurd (hinv.J0 a haN e he hab) hae
    · rw [upd_other _ _ _ har, upd_other _ _ _ hbr] at hab
      by_cases hap : a = N.prv e <;> by_cases hbp : b = N.prv e
      · rw [hap, hbp]
      · rw [hap, upd_same, upd_other _ _ _ hbp] at hab
        exact absurd (hinv.J0 b hbN (M0.opp e) hoeN hab.symm) hboe
      · rw [hbp, upd_same, upd_other _ _ _ hap] at hab
        exact absurd (hinv.J0 a haN (M0.opp e) hoeN hab) haoe
      · rw [upd_other _ _ _ hap, upd_other _ _ _ hbp] at hab
        exact hinv.J0 a haN b hbN hab
  · -- J1
    intro a ha hkva
    obtain ⟨haN, hae, haoe⟩ := (hmem a).mp ha
    rw [hnxt, hprv]
    by_cases har : a = N.prv (M0.opp e)
    · subst har
      rw [upd_same]
      have hsoe : N.nxt e ≠ M0.opp e := fun h => hae (hs_iff.mp h)
      refine ⟨(hmem _).mpr ⟨hs1, hse, hsoe⟩, ?_, ?_⟩
      · rw [hs2, hr3]
      · rw [upd_same]
    · by_cases hap : a = N.prv e
      · subst hap
        rw [upd_other _ _ _ har, upd_same]
        have hqe : N.nxt (M0.opp e) ≠ e := fun h => haoe (hq_iff.mp h)
        refine ⟨(hmem _).mpr ⟨hq1, hqe, hqoe⟩, ?_, ?_⟩
        · rw [hq2, hp3]
        · rw [upd_other _ _ _ hqs, upd_same]
      · rw [upd_other _ _ _ har, upd_other _ _ _ hap]
        obtain ⟨ha1, ha2, ha3⟩ := hinv.J1 a haN hkva
        have hnae : N.nxt a ≠ e := by
          intro h
          rw [h] at ha3
          exact hap ha3.symm
        have hnaoe : N.nxt a ≠ M0.opp e := by
          intro h
          rw [h] at ha3
          exact har ha3.symm
        have hns : N.nxt a ≠ N.nxt e := by
          intro h
          exact hae (hinv.J0 a haN e he h)
        have hnq : N.nxt a ≠ N.nxt (M0.opp e) := by
          intro h
          exact haoe (hinv.J0 a haN (M0.opp e) hoeN h)
        refine ⟨(hmem _).mpr ⟨ha1, hnae, hnaoe⟩, ha2, ?_⟩
        rw [upd_other _ _ _ hns, upd_other _ _ _ hnq]
        exact ha3
  · -- J2
    intro b hb hkvb
    obtain ⟨hbN, hbe, hboe⟩ := (hmem b).mp hb
    rw [hnxt, hprv]
    by_cases hbs : b = N.nxt e
    · subst hbs
      rw [upd_same]
      have hre : N.prv (M0.opp e) ≠ e := fun h => hboe (hs_iff.mpr h)
      refine ⟨(hmem _).mpr ⟨hr1, hre, hroe⟩, ?_, ?_⟩
      · rw [upd_same]
      · rw [hr3, hs2]
    · by_cases hbq : b = N.nxt (M0.opp e)
      · subst hbq
        rw [upd_other _ _ _ hbs, upd_same]
        have hpoe : N.prv e ≠ M0.opp e := fun h => hbe (hq_iff.mpr h)
        refine ⟨(hmem _).mpr ⟨hp1, hpe, hpoe⟩, ?_, ?_⟩
        · rw [upd_other _ _ _ hpr, upd_same]
        · rw [hp3, hq2]
      · rw [upd_other _ _ _ hbs, upd_other _ _ _ hbq]
        obtain ⟨hb1, hb2, hb3⟩ := hinv.J2 b hbN hkvb
        have hpbe : N.prv b ≠ e := by
          intro h
          rw [h] at hb2
          exact hbs hb2.symm
        have hpboe : N.prv b ≠ M0.opp e := by
          intro h
          rw [h] at hb2
          exact hbq hb2.symm
        have hpbr : N.prv b ≠ N.prv (M0.opp e) := by
          intro h
          rw [h, hr2] at hb2
          exact hboe hb2.symm
        have hpbp : N.prv b ≠ N.prv e := by
          intro h
          rw [h, hp2] at hb2
          exact hbe hb2.symm
        refine ⟨(hmem _).mpr ⟨hb1, hpbe, hpboe⟩, ?_, hb3⟩
        rw [upd_other _ _ _ hpbr, upd_other _ _ _ hpbp]
        exact hb2

theorem vhFixV_hedgesL (M : Mesh) (e : Nat) : (vhFixV M e).hedgesL = M.hedgesL := by
  unfold vhFixV
  split <;> rfl

theorem vhFixV_opp (M : Mesh) (e : Nat) : (vhFixV M e).opp = M.opp := by
  unfold vhFixV
  split <;> rfl

theorem vhFixW_hedgesL (A M : Mesh) (e : Nat) : (vhFixW A M e).hedgesL = M.hedgesL := by
  unfold vhFixW
  split <;> rfl

theorem vhFixW_opp (A M : Mesh) (e : Nat) : (vhFixW A M e).opp = M.opp := by
  unfold vhFixW
  split <;> rfl

theorem EInv_vhFixV (M0 : Mesh) (fcmB : Nat → Nat) (kv : Nat → Bool) {N : Mesh}
    (hinv : EInv M0 fcmB kv N) (e : Nat) : EInv M0 fcmB kv (vhFixV N e) := by
  unfold vhFixV
  split
  · exact EInv_setVh M0 fcmB kv hinv _ _
  · exact hinv

theorem EInv_vhFixW (M0 : Mesh) (fcmB : Nat → Nat) (kv : Nat → Bool) (A : Mesh)
    {N : Mesh} (hinv : EInv M0 fcmB kv N) (e : Nat) :
    EInv M0 fcmB kv (vhFixW A N e) := by
  unfold vhFixW
  split
  · exact EInv_setVh M0 fcmB kv hinv _ _
  · exact hinv

/-- A border halfedge has no face, hence no kept face. -/
theorem keptSide_of_border (fcmB : Nat → Nat) (M : Mesh) (x : Nat)
    (hb : M.isBorder x = true) : keptSide fcmB (M.hface x) = false := by
  unfold Mesh.isBorder at hb
  cases hM : M.hface x with
  | none => rfl
  | some f => rw [hM] at hb; cases hb

/-- One pass of the edge-reclassification loop: the invariant is
preserved, both halfedges of a doomed edge are removed, and no halfedge
is added. -/
theorem processEdge_EInv_step (M0 : Mesh) (fcmB : Nat → Nat) (kv : Nat → Bool)
    (hw : Wf M0) {N : Mesh} (hinv : EInv M0 fcmB kv N) (e : Nat)
    (he : e ∈ N.hedgesL)
    (hf1 : N.hface e = M0.hface e)
    (hf2 : N.hface (M0.opp e) = M0.hface (M0.opp e)) :
    EInv M0 fcmB kv (processEdge kv fcmB N e) ∧
      (keptHalfB M0 fcmB kv e = false →
        e ∉ (processEdge kv fcmB N e).hedgesL ∧
          M0.opp e ∉ (processEdge kv fcmB N e).hedgesL) ∧
      (∀ x ∈ (processEdge kv fcmB N e).hedgesL, x ∈ N.hedgesL) := by
  have hva : N.tgt (N.opp e) = M0.tgt (M0.opp e) := by
    rw [hinv.opp_eq, hinv.tgt_eq]
  have hwa : N.tgt e = M0.tgt e := by rw [hinv.tgt_eq]
  have hfo : N.hface (N.opp e) = M0.hface (M0.opp e) := by
    rw [hinv.opp_eq]
    exact hf2
  have hbeq : N.isBorder e = M0.isBorder e := by
    unfold Mesh.isBorder
    rw [hf1]
  have hboq : N.isBorder (N.opp e) = M0.isBorder (M0.opp e) := by
    unfold Mesh.isBorder
    rw [hfo]
  cases hv : kv (M0.tgt (M0.opp e)) with
  | false =>
    cases hwv : kv (M0.tgt e) with
    | false =>
      have hEQ : processEdge kv fcmB N e = removeEdgeM N e := by
        unfold processEdge
        dsimp only
        rw [if_pos (by simp [hva, hwa, hv, hwv])]
      refine ⟨?_, ?_, ?_⟩
      · rw [hEQ]
        exact EInv_remove_unkept M0 fcmB kv hw hinv e he hv hwv
      · intro _
        rw [hEQ]
        constructor
        · intro hc
          exact (mem_removeEdgeM_hedgesL.mp hc).2.1 rfl
        · intro hc
          exact (mem_removeEdgeM_hedgesL.mp hc).2.2 (by rw [hinv.opp_eq])
      · intro x hx
        rw [hEQ] at hx
        exact (mem_removeEdgeM_hedgesL.mp hx).1
    | true =>
      have hEQ : processEdge kv fcmB N e = spliceW (vhFixW N N e) e := by
        unfold processEdge vhFixW
        dsimp only
        rw [if_neg (by simp [hwa, hwv]), if_neg (by simp [hva, hv]),
          if_neg (by simp [hva, hv])]
      refine ⟨?_, ?_, ?_⟩
      · rw [hEQ]
        refine EInv_spliceW M0 fcmB kv hw (EInv_vhFixW M0 fcmB kv N hinv e) e ?_ hv hwv
        rw [vhFixW_hedgesL]
        exact he
      · intro _
        rw [hEQ]
        constructor
        · intro hc
          exact (mem_spliceW_hedgesL.mp hc).2.1 rfl
        · intro hc
          refine (mem_spliceW_hedgesL.mp hc).2.2 ?_
          rw [vhFixW_opp, hinv.opp_eq]
      · intro x hx
        rw [hEQ] at hx
        have h1 := (mem_spliceW_hedgesL.mp hx).1
        rwa [vhFixW_hedgesL] at h1
  | true =>
    cases hwv : kv (M0.tgt e) with
    | false =>
      have hEQ : processEdge kv fcmB N e = spliceV (vhFixV N e) e := by
        unfold processEdge vhFixV
        dsimp only
        rw [if_neg (by simp [hva, hv]), if_neg (by simp [hwa, hwv]),
          if_pos (by simp [hva, hv])]
      refine ⟨?_, ?_, ?_⟩
      · rw [hEQ]
        refine EInv_spliceV M0 fcmB kv hw (EInv_vhFixV M0 fcmB kv hinv e) e ?_ hv hwv
        rw [vhFixV_hedgesL]
        exact he
      · intro _
        rw [hEQ]
        constructor
        · intro hc
          exact (mem_spliceV_hedgesL.mp hc).2.1 rfl
        · intro hc
          refine (mem_spliceV_hedgesL.mp hc).2.2 ?_
          rw [vhFixV_opp, hinv.opp_eq]
      · intro x hx
        rw [hEQ] at hx
        have h1 := (mem_spliceV_hedgesL.mp hx).1
        rwa [vhFixV_hedgesL] at h1
    | true =>
      cases hbH : M0.isBorder e with
      | true =>
        have hkH : keptSide fcmB (M0.hface e) = false :=
          keptSide_of_border fcmB M0 e hbH
        cases hbO : M0.isBorder (M0.opp e) with
        | true =>
          have hkO : keptSide fcmB (M0.hface (M0.opp e)) = false :=
            keptSide_of_border fcmB M0 (M0.opp e) hbO
          have hEQ : processEdge kv fcmB N e = N := by
            unfold processEdge
            dsimp only
            rw [if_neg (by simp [hva, hv]), if_pos (by simp [hva, hwa, hv, hwv]),
              if_pos (by simp [hbeq, hboq, hbH, hbO])]
          have hkept : keptHalfB M0 fcmB kv e = true := by
            unfold keptHalfB
            rw [hv, hwv, hkH, hkO, hbH, hbO]
            rfl
          refine ⟨by rw [hEQ]; exact hinv, ?_, ?_⟩
          · intro hfalse
            rw [hkept] at hfalse
            cases hfalse
          · intro x hx
            rwa [hEQ] at hx
        | false =>
          cases hkO : keptSide fcmB (M0.hface (M0.opp e)) with
          | true =>
            have hEQ : processEdge kv fcmB N e = N := by
              unfold processEdge
              dsimp only
              rw [if_neg (by simp [hva, hv]), if_pos (by simp [hva, hwa, hv, hwv]),
                if_neg (by simp [hbeq, hboq, hbH, hbO]),
                if_pos (by simp [hbeq, hboq, hfo, hbH, hbO, hkO])]
            have hkept : keptHalfB M0 fcmB kv e = true := by
              unfold keptHalfB
              rw [hv, hwv, hkH, hkO, hbH, hbO]
              rfl
            refine ⟨by rw [hEQ]; exact hinv, ?_, ?_⟩
            · intro hfalse
              rw [hkept] at hfalse
              cases hfalse
            · intro x hx
              rwa [hEQ] at hx
          | false =>
            have hEQ : processEdge kv fcmB N e
                = spliceBoth (vhFixW N (vhFixV N e) e) e := by
              unfold processEdge vhFixV vhFixW
              dsimp only
              rw [if_neg (by simp [hva, hv]), if_pos (by simp [hva, hwa, hv, hwv]),
                if_neg (by simp [hbeq, hboq, hbH, hbO]),
                if_neg (by simp [hbeq, hboq, hf1, hfo, hbH, hbO, hkH, hkO]),
                if_neg (by simp [hbeq, hboq, hf1, hfo, hbH, hbO, hkH, hkO]),
                if_neg (by simp [hbeq, hboq, hf1, hfo, hbH, hbO, hkH, hkO])]
            refine ⟨?_, ?_, ?_⟩
            · rw [hEQ]
              refine EInv_spliceBoth M0 fcmB kv hw
                (EInv_vhFixW M0 fcmB kv N (EInv_vhFixV M0 fcmB kv hinv e) e) e
                ?_ hv hwv hkH hkO ?_
              · rw [vhFixW_hedgesL, vhFixV_hedgesL]
                exact he
              · rw [hbH, hbO]
                rfl
            · intro _
              rw [hEQ]
              constructor
              · intro hc
                exact (mem_spliceBoth_hedgesL.mp hc).2.1 rfl
              · intro hc
                refine (mem_spliceBoth_hedgesL.mp hc).2.2 ?_
                rw [vhFixW_opp, vhFixV_opp, hinv.opp_eq]
            · intro x hx
              rw [hEQ] at hx
              have h1 := (mem_spliceBoth_hedgesL.mp hx).1
              rwa [vhFixW_hedgesL, vhFixV_hedgesL] at h1
      | false =>
        cases hbO : M0.isBorder (M0.opp e) with
        | true =>
          have hkO : keptSide fcmB (M0.hface (M0.opp e)) = false :=
            keptSide_of_border fcmB M0 (M0.opp e) hbO
          cases hkH : keptSide fcmB (M0.hface e) with
          | true =>
            have hEQ : processEdge kv fcmB N e = N := by
              unfold processEdge
              dsimp only
              rw [if_neg (by simp [hva, hv]), if_pos (by simp [hva, hwa, hv, hwv]),
                if_neg (by simp [hbeq, hboq, hbH, hbO]),
                if_pos (by simp [hbeq, hboq, hf1, hbH, hbO, hkH])]
            have hkept : keptHalfB M0 fcmB kv e = true := by
              unfold keptHalfB
              rw [hv, hwv, hkH, hkO, hbH, hbO]
              rfl
            refine ⟨by rw [hEQ]; exact hinv, ?_, ?_⟩
            · intro hfalse
              rw [hkept] at hfalse
              cases hfalse
            · intro x hx
              rwa [hEQ] at hx
          | false =>
            have hEQ : processEdge kv fcmB N e
                = spliceBoth (vhFixW N (vhFixV N e) e) e := by
              unfold processEdge vhFixV vhFixW
              dsimp only
              rw [if_neg (by simp [hva, hv]), if_pos (by simp [hva, hwa, hv, hwv]),
                if_neg (by simp [hbeq, hboq, hbH, hbO]),
                if_neg (by simp [hbeq, hboq, hf1, hfo, hbH, hbO, hkH, hkO]),
                if_neg (by simp [hbeq, hboq, hf1, hfo, hbH, hbO, hkH, hkO]),
                if_neg (by simp [hbeq, hboq, hf1, hfo, hbH, hbO, hkH, hkO])]
            refine ⟨?_, ?_, ?_⟩
            · rw [hEQ]
              refine EInv_spliceBoth M0 fcmB kv hw
                (EInv_vhFixW M0 fcmB kv N (EInv_vhFixV M0 fcmB kv hinv e) e) e
                ?_ hv hwv hkH hkO ?_
              · rw [vhFixW_hedgesL, vhFixV_hedgesL]
                exact he
              · rw [hbH, hbO]
                rfl
            · intro _
              rw [hEQ]
              constructor
              · intro hc
                exact (mem_spliceBoth_hedgesL.mp hc).2.1 rfl
              · intro hc
                refine (mem_spliceBoth_hedgesL.mp hc).2.2 ?_
                rw [vhFixW_opp, vhFixV_opp, hinv.opp_eq]
            · intro x hx
              rw [hEQ] at hx
              have h1 := (mem_spliceBoth_hedgesL.mp hx).1
              rwa [vhFixW_hedgesL, vhFixV_hedgesL] at h1
        | false =>
          cases hkH : keptSide fcmB (M0.hface e) with
          | true =>
            cases hkO : keptSide fcmB (M0.hface (M0.opp e)) with
            | true =>
              have hEQ : processEdge kv fcmB N e = N := by
                unfold processEdge
                dsimp only
                rw [if_neg (by simp [hva, hv]), if_pos (by simp [hva, hwa, hv, hwv]),
                  if_neg (by simp [hbeq, hboq, hbH, hbO]),
                  if_pos (by simp [hbeq, hboq, hf1, hfo, hbH, hbO, hkH, hkO])]
              have hkept : keptHalfB M0 fcmB kv e = true := by
                unfold keptHalfB
                rw [hv, hwv, hkH, hkO, hbH, hbO]
                rfl
              refine ⟨by rw [hEQ]; exact hinv, ?_, ?_⟩
              · intro hfalse
                rw [hkept] at hfalse
                cases hfalse
              · intro x hx
                rwa [hEQ] at hx
            | false =>
              have hEQ : processEdge kv fcmB N e = setFaceM N (N.opp e) none := by
                unfold processEdge
                dsimp only
                rw [if_neg (by simp [hva, hv]), if_pos (by simp [hva, hwa, hv, hwv]),
                  if_neg (by simp [hbeq, hboq, hbH, hbO]),
                  if_neg (by simp [hbeq, hboq, hf1, hfo, hbH, hbO, hkH, hkO]),
                  if_pos (by simp [hbeq, hboq, hf1, hfo, hbH, hbO, hkH, hkO])]
              have hkept : keptHalfB M0 fcmB kv e = true := by
                unfold keptHalfB
                rw [hv, hwv, hkH, hkO, hbH, hbO]
                rfl
              refine ⟨?_, ?_, ?_⟩
              · rw [hEQ, hinv.opp_eq]
                exact EInv_setFace_none M0 fcmB kv hinv (M0.opp e) hkO
              · intro hfalse
                rw [hkept] at hfalse
                cases hfalse
              · intro x hx
                rw [hEQ] at hx
                rwa [setFaceM_hedgesL] at hx
          | false =>
            cases hkO : keptSide fcmB (M0.hface (M0.opp e)) with
            | true =>
              have hEQ : processEdge kv fcmB N e = setFaceM N e none := by
                unfold processEdge
                dsimp only
                rw [if_neg (by simp [hva, hv]), if_pos (by simp [hva, hwa, hv, hwv]),
                  if_neg (by simp [hbeq, hboq, hbH, hbO]),
                  if_neg (by simp [hbeq, hboq, hf1, hfo, hbH, hbO, hkH, hkO]),
                  if_neg (by simp [hbeq, hboq, hf1, hfo, hbH, hbO, hkH, hkO]),
                  if_pos (by simp [hbeq, hboq, hf1, hfo, hbH, hbO, hkH, hkO])]
              have hkept : keptHalfB M0 fcmB kv e = true := by
                unfold keptHalfB
                rw [hv, hwv, hkH, hkO, hbH, hbO]
                rfl
              refine ⟨?_, ?_, ?_⟩
              · rw [hEQ]
                exact EInv_setFace_none M0 fcmB kv hinv e hkH
              · intro hfalse
                rw [hkept] at hfalse
                cases hfalse
              · intro x hx
                rw [hEQ] at hx
                rwa [setFaceM_hedgesL] at hx
            | false =>
              have hEQ : processEdge kv fcmB N e
                  = spliceBoth (vhFixW N (vhFixV N e) e) e := by
                unfold processEdge vhFixV vhFixW
                dsimp only
                rw [if_neg (by simp [hva, hv]), if_pos (by simp [hva, hwa, hv, hwv]),
                  if_neg (by simp [hbeq, hboq, hbH, hbO]),
                  if_neg (by simp [hbeq, hboq, hf1, hfo, hbH, hbO, hkH, hkO]),
                  if_neg (by simp [hbeq, hboq, hf1, hfo, hbH, hbO, hkH, hkO]),
                  if_neg (by simp [hbeq, hboq, hf1, hfo, hbH, hbO, hkH, hkO])]
              refine ⟨?_, ?_, ?_⟩
              · rw [hEQ]
                refine EInv_spliceBoth M0 fcmB kv hw
                  (EInv_vhFixW M0 fcmB kv N (EInv_vhFixV M0 fcmB kv hinv e) e) e
                  ?_ hv hwv hkH hkO ?_
                · rw [vhFixW_hedgesL, vhFixV_hedgesL]
                  exact he
                · rw [hbH, hbO]
                  rfl
              · intro _
                rw [hEQ]
                constructor
                · intro hc
                  exact (mem_spliceBoth_hedgesL.mp hc).2.1 rfl
                · intro hc
                  refine (mem_spliceBoth_hedgesL.mp hc).2.2 ?_
                  rw [vhFixW_opp, vhFixV_opp, hinv.opp_eq]
              · intro x hx
                rw [hEQ] at hx
                have h1 := (mem_spliceBoth_hedgesL.mp hx).1
                rwa [vhFixW_hedgesL, vhFixV_hedgesL] at h1

/-- The whole edge-reclassification loop: starting from an invariant
state with every pending snapshot edge fresh (present, incident-face
fields untouched) and every doomed live halfedge pending, the fold
preserves the invariant and afterwards every live halfedge is kept. -/
theorem edgeLoop_EInv (M0 : Mesh) (fcmB : Nat → Nat) (kv : Nat → Bool)
    (hw : Wf M0) :
    ∀ (l : List Nat) (N : Mesh), EInv M0 fcmB kv N →
      l.Nodup → (∀ e ∈ l, e ∈ M0.edgesL) →
      (∀ e ∈ l, e ∈ N.hedgesL ∧ N.hface e = M0.hface e ∧
        N.hface (M0.opp e) = M0.hface (M0.opp e)) →
      (∀ h ∈ N.hedgesL, keptHalfB M0 fcmB kv h = false →
        ∃ e ∈ l, h = e ∨ h = M0.opp e) →
      EInv M0 fcmB kv (l.foldl (processEdge kv fcmB) N) ∧
        (∀ h ∈ (l.foldl (processEdge kv fcmB) N).hedgesL,
          keptHalfB M0 fcmB kv h = true) := by
  intro l
  induction l with
  | nil =>
    intro N hinv _ _ _ hdoom
    refine ⟨hinv, ?_⟩
    intro h hh
    cases hkb : keptHalfB M0 fcmB kv h with
    | true => rfl
    | false =>
      obtain ⟨e, hel, _⟩ := hdoom h hh hkb
      exact absurd hel (List.not_mem_nil e)
  | cons e l ih =>
    intro N hinv hnd hsub hfresh hdoom
    have hem : e ∈ M0.edgesL := hsub e (List.mem_cons_self _ _)
    have hEl : e ∉ l := (List.nodup_cons.mp hnd).1
    obtain ⟨heN, hf1, hf2⟩ := hfresh e (List.mem_cons_self _ _)
    obtain ⟨hinv', hdoomE, hsub'⟩ :=
      processEdge_EInv_step M0 fcmB kv hw hinv e heN hf1 hf2
    rw [List.foldl_cons]
    refine ih (processEdge kv fcmB N e) hinv' (List.nodup_cons.mp hnd).2
      (fun e' h => hsub e' (List.mem_cons_of_mem _ h)) ?_ ?_
    · intro e' he'l
      have hne : e' ≠ e := fun h => hEl (h ▸ he'l)
      obtain ⟨hd1, hd2, hd3⟩ :=
        edges_disjoint M0 hw (hsub e' (List.mem_cons_of_mem _ he'l)) hem hne
      have hne2 : e' ≠ N.opp e := by rw [hinv.opp_eq]; exact hd1
      have hno1 : M0.opp e' ≠ e := hd2
      have hno2 : M0.opp e' ≠ N.opp e := by rw [hinv.opp_eq]; exact hd3
      obtain ⟨h1, h2, h3⟩ := hfresh e' (List.mem_cons_of_mem _ he'l)
      refine ⟨(processEdge_hedges_frame kv fcmB N e e' hne hne2).mpr h1, ?_, ?_⟩
      · rw [processEdge_hface_frame kv fcmB N e e' hne hne2]
        exact h2
      · rw [processEdge_hface_frame kv fcmB N e (M0.opp e') hno1 hno2]
        exact h3
    · intro h hh hkb
      obtain ⟨e'', he''m, hor⟩ := hdoom h (hsub' h hh) hkb
      rcases List.mem_cons.mp he''m with heq | he''l
      · rw [heq] at hor
        rcases hor with rfl | rfl
        · exact absurd hh (hdoomE hkb).1
        · have hkb' : keptHalfB M0 fcmB kv e = false := by
            rw [← keptHalfB_opp M0 fcmB kv hw (hw.edges_sub e hem)]
            exact hkb
          exact absurd hh (hdoomE hkb').2
      · exact ⟨e'', he''l, hor⟩

/-- The edge phase of `keep_or_remove_connected_components` establishes
the invariant, and afterwards every surviving halfedge is kept. -/
theorem kor_edgephase (M : Mesh) (ids : List Nat) (fcm : Nat → Nat)
    (keep : Bool) (hw : Wf M) :
    EInv M (fcmReset ids keep fcm) (keepVertexF M (fcmReset ids keep fcm))
        (M.edgesL.foldl
          (processEdge (keepVertexF M (fcmReset ids keep fcm))
            (fcmReset ids keep fcm)) M) ∧
      ∀ h ∈ (M.edgesL.foldl
          (processEdge (keepVertexF M (fcmReset ids keep fcm))
            (fcmReset ids keep fcm)) M).hedgesL,
        keptHalfB M (fcmReset ids keep fcm)
          (keepVertexF M (fcmReset ids keep fcm)) h = true := by
  refine edgeLoop_EInv M (fcmReset ids keep fcm)
    (keepVertexF M (fcmReset ids keep fcm)) hw M.edgesL M
    (EInv_init M (fcmReset ids keep fcm) (keepVertexF M (fcmReset ids keep fcm)) hw)
    hw.edgesND (fun _ h => h) ?_ ?_
  · intro e hel
    exact ⟨hw.edges_sub e hel, rfl, rfl⟩
  · intro h hh _
    rcases hw.edges_cover h hh with hc | hc
    · exact ⟨h, hc, Or.inl rfl⟩
    · exact ⟨M.opp h, hc, Or.inr (hw.opp_invol h hh).symm⟩

/-- The face- and vertex-erasure passes after the edge loop change only
the face and vertex lists. -/
theorem kor_fields (M : Mesh) (ids : List Nat) (fcm : Nat → Nat) (keep : Bool) :
    (keep_or_remove_connected_components M ids fcm keep).1.hedgesL
        = (M.edgesL.foldl (processEdge (keepVertexF M (fcmReset ids keep fcm))
            (fcmReset ids keep fcm)) M).hedgesL ∧
    (keep_or_remove_connected_components M ids fcm keep).1.tgt
        = (M.edgesL.foldl (processEdge (keepVertexF M (fcmReset ids keep fcm))
            (fcmReset ids keep fcm)) M).tgt ∧
    (keep_or_remove_connected_components M ids fcm keep).1.opp
        = (M.edgesL.foldl (processEdge (keepVertexF M (fcmReset ids keep fcm))
            (fcmReset ids keep fcm)) M).opp ∧
    (keep_or_remove_connected_components M ids fcm keep).1.nxt
        = (M.edgesL.foldl (processEdge (keepVertexF M (fcmReset ids keep fcm))
            (fcmReset ids keep fcm)) M).nxt ∧
    (keep_or_remove_connected_components M ids fcm keep).1.hface
        = (M.edgesL.foldl (processEdge (keepVertexF M (fcmReset ids keep fcm))
            (fcmReset ids keep fcm)) M).hface := by
  unfold keep_or_remove_connected_components
  dsimp only
  refine ⟨?_, ?_, ?_, ?_, ?_⟩
  · rw [(vertFold_frame _ _ _).2.1, (faceFold_frame _ _ _).2.1]
  · rw [(vertFold_frame _ _ _).2.2.1, (faceFold_frame _ _ _).2.2.1]
  · rw [(vertFold_frame _ _ _).2.2.2.1, (faceFold_frame _ _ _).2.2.2.1]
  · rw [(vertFold_frame _ _ _).2.2.2.2.1, (faceFold_frame _ _ _).2.2.2.2.1]
  · rw [(vertFold_frame _ _ _).2.2.2.2.2, (faceFold_frame _ _ _).2.2.2.2.2]

/-- No-dangling property of `keep_or_remove_connected_components`: every
surviving vertex is the target of a surviving halfedge bounding a
surviving face, and the `opposite` and `next` of every surviving halfedge
survive. -/
theorem kor_no_dangling (M : Mesh) (ids : List Nat) (fcm : Nat → Nat)
    (keep : Bool) (hw : Wf M) :
    (∀ v ∈ (keep_or_remove_connected_components M ids fcm keep).1.vertsL,
      ∃ h ∈ (keep_or_remove_connected_components M ids fcm keep).1.hedgesL,
        (keep_or_remove_connected_components M ids fcm keep).1.tgt h = v ∧
        ∃ f ∈ (keep_or_remove_connected_components M ids fcm keep).1.facesL,
          (keep_or_remove_connected_components M ids fcm keep).1.hface h = some f) ∧
    (∀ h ∈ (keep_or_remove_connected_components M ids fcm keep).1.hedgesL,
      (keep_or_remove_connected_components M ids fcm keep).1.opp h
          ∈ (keep_or_remove_connected_components M ids fcm keep).1.hedgesL ∧
      (keep_or_remove_connected_components M ids fcm keep).1.nxt h
          ∈ (keep_or_remove_connected_components M ids fcm keep).1.hedgesL) := by
  obtain ⟨hH, hT, hO, hN, hF⟩ := kor_fields M ids fcm keep
  obtain ⟨hinv, hkept⟩ := kor_edgephase M ids fcm keep hw
  constructor
  · intro v hv
    obtain ⟨hvM, hkv⟩ := (kor_verts_mem M ids fcm keep v).mp hv
    have hkv' := hkv
    simp only [keepVertexF, List.any_eq_true, Bool.and_eq_true,
      decide_eq_true_eq] at hkv'
    obtain ⟨f, hfM, hf1, h, hhcyc, hhv⟩ := hkv'
    obtain ⟨hhH, hhf⟩ := hw.faceCycle_sound f hfM h hhcyc
    have hprvH : M.prv h ∈ M.hedgesL := hw.prv_mem h hhH
    have hface_prv : M.hface (M.prv h) = some f := by
      have h1 := hw.face_nxt (M.prv h) hprvH
      rw [hw.nxt_prv h hhH] at h1
      rw [← h1]
      exact hhf
    have hprvCyc : M.prv h ∈ faceCycle M (M.fh f) :=
      hw.faceCycle_complete f hfM (M.prv h) hprvH hface_prv
    have hsrc : M.tgt (M.opp h) = M.tgt (M.prv h) := by
      have h1 := hw.src_nxt (M.prv h) hprvH
      rw [hw.nxt_prv h hhH] at h1
      exact h1
    have hkvsrc : keepVertexF M (fcmReset ids keep fcm) (M.tgt (M.opp h)) = true := by
      rw [hsrc]
      simp only [keepVertexF, List.any_eq_true, Bool.and_eq_true,
        decide_eq_true_eq]
      exact ⟨f, hfM, hf1, M.prv h, hprvCyc, rfl⟩
    have hkvtgt : keepVertexF M (fcmReset ids keep fcm) (M.tgt h) = true := by
      rw [hhv]
      exact hkv
    have hksH : keptSide (fcmReset ids keep fcm) (M.hface h) = true := by
      rw [hhf]
      simp [keptSide, hf1]
    have hkb : keptHalfB M (fcmReset ids keep fcm)
        (keepVertexF M (fcmReset ids keep fcm)) h = true := by
      unfold keptHalfB
      rw [hkvsrc, hkvtgt, hksH]
      rfl
    have hsurv := hinv.survKept h hhH hkb
    refine ⟨h, ?_, ?_, f, ?_, ?_⟩
    · rw [hH]
      exact hsurv
    · rw [hT, hinv.tgt_eq]
      exact hhv
    · exact (kor_faces_mem M ids fcm keep f).mpr ⟨hfM, hf1⟩
    · rw [hF, hinv.hface_kept h hksH]
      exact hhf
  · intro h hh
    rw [hH] at hh
    have hkb := hkept h hh
    unfold keptHalfB at hkb
    rw [Bool.and_eq_true, Bool.and_eq_true] at hkb
    obtain ⟨⟨_, hkvtgt⟩, _⟩ := hkb
    constructor
    · rw [hH, hO, hinv.opp_eq]
      exact hinv.pair h hh
    · rw [hH, hN]
      exact (hinv.J1 h hh hkvtgt).1

/-- C2.  After `keep_connected_components`, and after
`remove_connected_components` whenever the id range is nonempty, no
surviving entity references an erased one: every surviving vertex is the
target of a surviving halfedge bounding at least one surviving face, and
the `opposite` and `next` of every surviving halfedge are themselves
surviving halfedges.  (With an empty id range
`remove_connected_components` returns the mesh untouched, so a
pre-existing isolated vertex survives with no incident face; the claim as
stated fails there, see the counterexample.) -/
theorem keep_remove_no_dangling (M : Mesh) (ids : List Nat) (fcm : Nat → Nat)
    (hw : Wf M) (P : Mesh)
    (hP : P = (keep_connected_componentsM M ids fcm).1 ∨
        (ids ≠ [] ∧ P = (remove_connected_componentsM M ids fcm).1)) :
    (∀ v ∈ P.vertsL, ∃ h ∈ P.hedgesL, P.tgt h = v ∧
        ∃ f ∈ P.facesL, P.hface h = some f) ∧
    (∀ h ∈ P.hedgesL, P.opp h ∈ P.hedgesL ∧ P.nxt h ∈ P.hedgesL) := by
  rcases hP with rfl | ⟨hne, rfl⟩
  · exact kor_no_dangling M ids fcm true hw
  · have hie : ids.isEmpty = false := by
      cases ids with
      | nil => exact absurd rfl hne
      | cons a l => rfl
    have hEQ : remove_connected_componentsM M ids fcm
        = keep_or_remove_connected_components M ids fcm false := by
      unfold remove_connected_componentsM
      rw [if_neg (by simp [hie])]
    rw [hEQ]
    exact kor_no_dangling M ids fcm false hw

/-- With an empty id set `remove_connected_components` returns without
touching the mesh, so an isolated vertex survives even though no
surviving halfedge targets it: the unrestricted no-dangling claim fails. -/
theorem remove_cc_empty_dangling :
    ∃ v ∈ (remove_connected_componentsM W2 [] (fun _ => 0)).1.vertsL,
      ∀ h ∈ (remove_connected_componentsM W2 [] (fun _ => 0)).1.hedgesL,
        (remove_connected_componentsM W2 [] (fun _ => 0)).1.tgt h ≠ v := by
  decide

/-- Witness: the no-dangling theorem instantiated on the two-triangle
mesh with an isolated vertex, keeping component 0. -/
theorem keep_remove_no_dangling_witness :
    (∀ v ∈ (keep_connected_componentsM W2 [0] (fun _ => 0)).1.vertsL,
      ∃ h ∈ (keep_connected_componentsM W2 [0] (fun _ => 0)).1.hedgesL,
        (keep_connected_componentsM W2 [0] (fun _ => 0)).1.tgt h = v ∧
        ∃ f ∈ (keep_connected_componentsM W2 [0] (fun _ => 0)).1.facesL,
          (keep_connected_componentsM W2 [0] (fun _ => 0)).1.hface h = some f) ∧
    (∀ h ∈ (keep_connected_componentsM W2 [0] (fun _ => 0)).1.hedgesL,
      (keep_connected_componentsM W2 [0] (fun _ => 0)).1.opp h
          ∈ (keep_connected_componentsM W2 [0] (fun _ => 0)).1.hedgesL ∧
      (keep_connected_componentsM W2 [0] (fun _ => 0)).1.nxt h
          ∈ (keep_connected_componentsM W2 [0] (fun _ => 0)).1.hedgesL) :=
  keep_remove_no_dangling W2 [0] (fun _ => 0) W2_wf
    (keep_connected_componentsM W2 [0] (fun _ => 0)).1 (Or.inl rfl)

end CC

